import Mathlib

/-!
# The text scraper of `test/main.cpp`, and two of the feature demos

A shallow embedding of `str_replace`, `extract_text`, `find_definitions`,
`scrape` and `main` from `src/test/main.cpp`, together with the parts of the
C++ standard library, of the HTTP client library and of the HTML parser's
node type that these functions use; of `asInt` from
`src/19_std_stringviews/main.cpp`; of the class `Name` and of `asInt` from
`src/Cpp17_josuttis/15_std_optional/main.cpp`; of the class template
`CountCalls` from `src/9_CTAD/main.cpp`; and of `seq_accumulate` and
`par_reduce` from `src/Cpp17_josuttis/22_ParallelSTLAlgorithms/main.cpp`.

A `std::string` is the list of its characters.  A C string (`char*`) is
represented by the characters before its terminator.
-/

namespace Scraper

/-- A `std::string`, as the sequence of its characters. -/
abbrev Str := List Char

/-! ## Standard-library operations used by the source -/

/-- Scan of `std::string::find`: `rest` is the part of the subject starting at
index `pos`; the result is the index of the first occurrence of `search` at or
after `pos`, if there is one.  An empty `search` is found at every index up to
and including the end of the subject. -/
def find_from (search : Str) : Str → Nat → Option Nat
  | [], pos => if search.isPrefixOf [] then some pos else none
  | c :: cs, pos =>
    if search.isPrefixOf (c :: cs) then some pos else find_from search cs (pos + 1)

/-- The call `subject.find( search.data(), pos, search.length() )`: the index
of the first occurrence of `search` in `subject` at or after `pos`; `none` is
`npos`. -/
def string_find (subject search : Str) (pos : Nat) : Option Nat :=
  if subject.length < pos then none else find_from search (subject.drop pos) pos

/-- The call `subject.replace( pos, len, replace.data(), replace.length() )`
for `pos ≤ subject.length`: the `len` characters from index `pos` on (fewer
when the subject ends earlier) are replaced by `replace`. -/
def string_replace (subject : Str) (pos len : Nat) (replace : Str) : Str :=
  subject.take pos ++ replace ++ subject.drop (pos + len)

/-- The C function `strstr( haystack, needle )`: the part of `haystack` from
the first occurrence of `needle` on, `none` (a null pointer) when `needle`
does not occur. -/
def strstr : Str → Str → Option Str
  | [], needle => if needle.isPrefixOf [] then some [] else none
  | c :: cs, needle =>
    if needle.isPrefixOf (c :: cs) then some (c :: cs) else strstr cs needle

/-! ## The parser's node type -/

/-- Modelled from the spec: the tag identifier of an element, from the parser's
enumeration `GumboTag` (header `gumbo.h`, not part of the sources).  The source
names `GUMBO_TAG_SCRIPT` and `GUMBO_TAG_STYLE`; `GUMBO_TAG_DIV` and
`GUMBO_TAG_SPAN` are the tags of the spec's scenarios; `GUMBO_TAG_OTHER id`
stands for each remaining enumerator, the unknown-tag fallback included. -/
inductive GumboTag where
  | GUMBO_TAG_SCRIPT
  | GUMBO_TAG_STYLE
  | GUMBO_TAG_DIV
  | GUMBO_TAG_SPAN
  | GUMBO_TAG_OTHER (id : Nat)
  deriving DecidableEq, Repr

/-- Modelled from the spec: an attribute of an element (`GumboAttribute` of
`gumbo.h`), of which the source reads the name and the `value`. -/
structure GumboAttribute where
  name : Str
  value : Str
  deriving DecidableEq, Repr

/-- Modelled from the spec: the kinds of node that are neither Text nor Element
("comment nodes, doctype, etc."). -/
inductive GumboOtherType where
  | GUMBO_NODE_DOCUMENT
  | GUMBO_NODE_CDATA
  | GUMBO_NODE_COMMENT
  | GUMBO_NODE_WHITESPACE
  | GUMBO_NODE_TEMPLATE
  deriving DecidableEq, Repr

/-- Modelled from the spec: a node of the parsed tree (`GumboNode` of
`gumbo.h`), a tagged variant over Text, Element and Other.  A Text node
(`type == GUMBO_NODE_TEXT`) owns its literal text `v.text.text`; an Element
node (`type == GUMBO_NODE_ELEMENT`) owns `v.element.tag`,
`v.element.attributes` and the ordered sequence `v.element.children`; every
other node is a leaf for the functions of the source, which read nothing of
it but its `type`. -/
inductive GumboNode where
  | text (text : Str)
  | element (tag : GumboTag) (attributes : List GumboAttribute) (children : List GumboNode)
  | other (type : GumboOtherType)
  deriving Repr

/-- Modelled from the spec: the parser's `gumbo_get_attribute( attributes, name )`
(not part of the sources): the attribute named `name` of the attribute
mapping, `none` (a null pointer) when there is none; of several entries with
one name the first is the mapping's. -/
def gumbo_get_attribute : List GumboAttribute → Str → Option GumboAttribute
  | [], _ => none
  | a :: as, name => if a.name = name then some a else gumbo_get_attribute as name

/-! ## `str_replace` -/

/-- The `for` loop of `str_replace`, run for at most `fuel` evaluations of its
condition: `none` when the budget ends before `find` has returned `npos`.  The
counter `count`, which is only incremented and is no part of the result, is
left out. -/
def str_replace_loop (search replace : Str) : Nat → Str → Nat → Option Str
  | 0, _, _ => none
  | fuel + 1, subject, pos =>
    match string_find subject search pos with
    | none => some subject
    | some p =>
      str_replace_loop search replace fuel
        (string_replace subject p search.length replace) (p + replace.length)

/-- The function `str_replace( search, replace, subject )`: the loop from `pos = 0`,
returning the final value of `subject`.  The budget `subject.length + 1` is
enough for every non-empty `search` (`str_replace_loop_fuel`) and a larger
one changes nothing (`str_replace_loop_mono`); `none` stands for a loop that
does not end. -/
def str_replace (search replace subject : Str) : Option Str :=
  str_replace_loop search replace (subject.length + 1) subject 0

/-- One iteration of the `for` loop of `str_replace`: the condition, and when
`find` has found an occurrence the body and the increment: the subject and
the position after the iteration; `none` when `find` returns `npos` and the
loop ends. -/
def str_replace_step (search replace subject : Str) (pos : Nat) : Option (Str × Nat) :=
  match string_find subject search pos with
  | none => none
  | some p => some (string_replace subject p search.length replace, p + replace.length)

/-- The subject and the position after `n` iterations of the loop; `none` when
the loop has ended before. -/
def str_replace_iterate (search replace : Str) : Nat → Str → Nat → Option (Str × Nat)
  | 0, subject, pos => some (subject, pos)
  | n + 1, subject, pos =>
    match str_replace_step search replace subject pos with
    | none => none
    | some (subject1, pos1) => str_replace_iterate search replace n subject1 pos1

/-! ## `extract_text` and `find_definitions` -/

mutual
/-- The function `extract_text( node )`. -/
def extract_text : GumboNode → Option Str
  | .text text => some text
  | .element tag _ children =>
    if tag ≠ GumboTag.GUMBO_TAG_SCRIPT ∧ tag ≠ GumboTag.GUMBO_TAG_STYLE then
      extract_text_loop children 0 []
    else some []
  | .other _ => some []
/-- The `for` loop of `extract_text` over the children from index `i` on, with
`contents` as accumulated so far; the list holds `children->data[i]` and the
children after it.  The string appended when `i != 0` and the text is not
empty is the empty string literal of the source. -/
def extract_text_loop : List GumboNode → Nat → Str → Option Str
  | [], _, contents => some contents
  | child :: rest, i, contents =>
    match extract_text child with
    | none => none
    | some text =>
      let contents1 := if i ≠ 0 ∧ ¬ text = [] then contents ++ [] else contents
      match str_replace [':'] ['>'] text with
      | none => none
      | some replaced => extract_text_loop rest (i + 1) (contents1 ++ replaced)
end

mutual
/-- The function `find_definitions( node )`. -/
def find_definitions : GumboNode → Option Str
  | .text _ => some []
  | .other _ => some []
  | .element tag attributes children =>
    let res1 : Option Str :=
      match gumbo_get_attribute attributes "class".toList with
      | none => some []
      | some attr =>
        match strstr attr.value "dtText".toList with
        | none => some []
        | some _ =>
          match extract_text (.element tag attributes children) with
          | none => none
          | some t => some ([] ++ t ++ ['\n'])
    match res1 with
    | none => none
    | some res => find_definitions_loop children res
/-- The `for` loop of `find_definitions` over the children in document order,
with `res` as accumulated so far.  The index `i` of the source only selects
the next child and is left out. -/
def find_definitions_loop : List GumboNode → Str → Option Str
  | [], res => some res
  | child :: rest, res =>
    match find_definitions child with
    | none => none
    | some d => find_definitions_loop rest (res ++ d)
end

/-! ## Vocabulary of the specification -/

/-- Every occurrence of the character `a` replaced by the character `b`. -/
def substitute (a b : Char) (s : Str) : Str :=
  s.map (fun c => if c = a then b else c)

mutual
/-- The nodes of the tree rooted at a node, in depth-first pre-order. -/
def nodes : GumboNode → List GumboNode
  | .text text => [.text text]
  | .other type => [.other type]
  | .element tag attributes children =>
    .element tag attributes children :: nodes_list children
/-- The nodes of the trees rooted at the members of a list of siblings, in
document order. -/
def nodes_list : List GumboNode → List GumboNode
  | [] => []
  | child :: rest => nodes child ++ nodes_list rest
end

/-- The marker test as the specification words it: the node is an Element
that has an attribute named `class` whose value contains the substring
`"dtText"`. -/
def has_marker : GumboNode → Prop
  | .element _ attributes _ =>
    ∃ attr, gumbo_get_attribute attributes "class".toList = some attr ∧
      "dtText".toList <:+: attr.value
  | _ => False

mutual
/-- The contents of the Text nodes reachable from a node through Element
nodes none of which, the node itself included, is a script or style element,
in document (depth-first, left-to-right) order. -/
def text_contents : GumboNode → List Str
  | .text text => [text]
  | .other _ => []
  | .element tag _ children =>
    if tag = GumboTag.GUMBO_TAG_SCRIPT ∨ tag = GumboTag.GUMBO_TAG_STYLE then []
    else text_contents_list children
/-- The contents of the Text nodes so reachable from the members of a list of
siblings, in document order. -/
def text_contents_list : List GumboNode → List Str
  | [] => []
  | child :: rest => text_contents child ++ text_contents_list rest
end

/-- The marker test is decidable. -/
instance has_marker_decidable : DecidablePred has_marker
  | .text _ => isFalse (fun h => h)
  | .other _ => isFalse (fun h => h)
  | .element _ attributes _ =>
    match hattr : gumbo_get_attribute attributes "class".toList with
    | none => isFalse (fun ⟨_, h, _⟩ => by rw [hattr] at h; exact Option.noConfusion h)
    | some attr =>
      if hvalue : "dtText".toList <:+: attr.value then isTrue ⟨attr, hattr, hvalue⟩
      else isFalse (fun ⟨a, h, hv⟩ => by
        rw [hattr] at h
        exact hvalue (Option.some.inj h ▸ hv))

/-- The Elements of the tree rooted at a node that carry the marker, in
depth-first pre-order. -/
def marked_elements (root : GumboNode) : List GumboNode :=
  (nodes root).filter (fun n => decide (has_marker n))

/-! ## `find_definitions` with its invocations recorded -/

mutual
/-- The function `find_definitions( node )` together with the list of the
nodes on which `find_definitions` is invoked during the call, in the order of
the invocations, the call on `node` itself first. -/
def find_definitions_traced : GumboNode → Option (Str × List GumboNode)
  | .text text => some ([], [.text text])
  | .other type => some ([], [.other type])
  | .element tag attributes children =>
    let res1 : Option Str :=
      match gumbo_get_attribute attributes "class".toList with
      | none => some []
      | some attr =>
        match strstr attr.value "dtText".toList with
        | none => some []
        | some _ =>
          match extract_text (.element tag attributes children) with
          | none => none
          | some t => some ([] ++ t ++ ['\n'])
    match res1 with
    | none => none
    | some res =>
      find_definitions_loop_traced children res [.element tag attributes children]
/-- The `for` loop of `find_definitions`, with `res` and the invocations
recorded so far. -/
def find_definitions_loop_traced :
    List GumboNode → Str → List GumboNode → Option (Str × List GumboNode)
  | [], res, visited => some (res, visited)
  | child :: rest, res, visited =>
    match find_definitions_traced child with
    | none => none
    | some (d, v) => find_definitions_loop_traced rest (res ++ d) (visited ++ v)
end

/-! ## The functions with the tree as an in-out parameter

`extract_text` and `find_definitions` receive a pointer to a node, and
`str_replace` receives its subject by reference.  Here each function returns,
next to its result, the value after the call of what it was given access
to. -/

/-- The function `str_replace( search, replace, subject )` with `subject` as
an in-out parameter: the returned string, a copy of the final `subject`, and
`subject` after the call. -/
def str_replace_ref (search replace subject : Str) : Option (Str × Str) :=
  match str_replace_loop search replace (subject.length + 1) subject 0 with
  | none => none
  | some final => some (final, final)

mutual
/-- The function `extract_text( node )`, returning the text and the node as it
is after the call.  `std::string( node->v.text.text )` and
`std::string text = extract_text( ... )` make copies; `str_replace` is given
the local `text`. -/
def extract_text_st : GumboNode → Option (Str × GumboNode)
  | .text text => some (text, .text text)
  | .element tag attributes children =>
    if tag ≠ GumboTag.GUMBO_TAG_SCRIPT ∧ tag ≠ GumboTag.GUMBO_TAG_STYLE then
      match extract_text_loop_st children 0 [] with
      | none => none
      | some (contents, children1) => some (contents, .element tag attributes children1)
    else some ([], .element tag attributes children)
  | .other type => some ([], .other type)
/-- The `for` loop of `extract_text`, returning `contents` and the children as
they are after the loop. -/
def extract_text_loop_st : List GumboNode → Nat → Str → Option (Str × List GumboNode)
  | [], _, contents => some (contents, [])
  | child :: rest, i, contents =>
    match extract_text_st child with
    | none => none
    | some (text, child1) =>
      let contents1 := if i ≠ 0 ∧ ¬ text = [] then contents ++ [] else contents
      match str_replace_ref [':'] ['>'] text with
      | none => none
      | some (replaced, _) =>
        match extract_text_loop_st rest (i + 1) (contents1 ++ replaced) with
        | none => none
        | some (result, rest1) => some (result, child1 :: rest1)
end

/-- The `for` loop of `find_definitions`, returning `res` and the children as
they are after the loop; `call` is the recursive call of `find_definitions`. -/
def find_definitions_loop_st (call : GumboNode → Option (Str × GumboNode)) :
    List GumboNode → Str → Option (Str × List GumboNode)
  | [], res => some (res, [])
  | child :: rest, res =>
    match call child with
    | none => none
    | some (d, child1) =>
      match find_definitions_loop_st call rest (res ++ d) with
      | none => none
      | some (result, rest1) => some (result, child1 :: rest1)

/-- The function `find_definitions( node )`, returning the string and the node
as it is after the call.  The loop runs over the children of the node as the
call of `extract_text` left it, so the recursion is bounded by `fuel`, the
number of nested invocations allowed: `none` when it is used up. -/
def find_definitions_st : Nat → GumboNode → Option (Str × GumboNode)
  | 0, _ => none
  | _ + 1, .text text => some ([], .text text)
  | _ + 1, .other type => some ([], .other type)
  | fuel + 1, .element tag attributes children =>
    let res1 : Option (Str × GumboNode) :=
      match gumbo_get_attribute attributes "class".toList with
      | none => some ([], .element tag attributes children)
      | some attr =>
        match strstr attr.value "dtText".toList with
        | none => some ([], .element tag attributes children)
        | some _ =>
          match extract_text_st (.element tag attributes children) with
          | none => none
          | some (t, node1) => some ([] ++ t ++ ['\n'], node1)
    match res1 with
    | none => none
    | some (res, .element tag1 attributes1 children1) =>
      match find_definitions_loop_st (find_definitions_st fuel) children1 res with
      | none => none
      | some (result, children2) => some (result, .element tag1 attributes1 children2)
    | some (res, node1) => some (res, node1)

mutual
/-- The number of Elements on the longest chain from a node down to a leaf. -/
def height : GumboNode → Nat
  | .text _ => 0
  | .other _ => 0
  | .element _ _ children => height_list children + 1
/-- The largest height among the members of a list of siblings. -/
def height_list : List GumboNode → Nat
  | [] => 0
  | child :: rest => max (height child) (height_list rest)
end

/-! ## The functions with the hidden state of a run

The source has no global and no static variable.  The one piece of state that
a call does not receive through its arguments is the storage of the local
`size_t count` of `str_replace`, which is declared without an initialiser: the
loop increments whatever that storage holds.  Here this value is the hidden
state: every function takes it, `str_replace` counts in it, and every function
returns what it holds after the call, which is what the next call finds. -/

/-- The `for` loop of `str_replace` with its counter: `count` is incremented
after each replacement, as a `size_t` (64 bits); the result is the final
subject with the final counter. -/
def str_replace_loop_count (search replace : Str) :
    Nat → Str → Nat → Nat → Option (Str × Nat)
  | 0, _, _, _ => none
  | fuel + 1, subject, pos, count =>
    match string_find subject search pos with
    | none => some (subject, count)
    | some p =>
      str_replace_loop_count search replace fuel
        (string_replace subject p search.length replace) (p + replace.length)
        ((count + 1) % 2 ^ 64)

/-- The function `str_replace( search, replace, subject )` with the hidden
state: `count` starts from the value `hidden` that its storage holds; the
result is the returned string and the value the storage holds afterwards. -/
def str_replace_hidden (search replace subject : Str) (hidden : Nat) : Option (Str × Nat) :=
  str_replace_loop_count search replace (subject.length + 1) subject 0 (hidden % 2 ^ 64)

mutual
/-- The function `extract_text( node )` with the hidden state. -/
def extract_text_hidden : GumboNode → Nat → Option (Str × Nat)
  | .text text, hidden => some (text, hidden)
  | .element tag _ children, hidden =>
    if tag ≠ GumboTag.GUMBO_TAG_SCRIPT ∧ tag ≠ GumboTag.GUMBO_TAG_STYLE then
      extract_text_loop_hidden children 0 [] hidden
    else some ([], hidden)
  | .other _, hidden => some ([], hidden)
/-- The `for` loop of `extract_text` with the hidden state. -/
def extract_text_loop_hidden : List GumboNode → Nat → Str → Nat → Option (Str × Nat)
  | [], _, contents, hidden => some (contents, hidden)
  | child :: rest, i, contents, hidden =>
    match extract_text_hidden child hidden with
    | none => none
    | some (text, hidden1) =>
      let contents1 := if i ≠ 0 ∧ ¬ text = [] then contents ++ [] else contents
      match str_replace_hidden [':'] ['>'] text hidden1 with
      | none => none
      | some (replaced, hidden2) =>
        extract_text_loop_hidden rest (i + 1) (contents1 ++ replaced) hidden2
end

mutual
/-- The function `find_definitions( node )` with the hidden state. -/
def find_definitions_hidden : GumboNode → Nat → Option (Str × Nat)
  | .text _, hidden => some ([], hidden)
  | .other _, hidden => some ([], hidden)
  | .element tag attributes children, hidden =>
    let res1 : Option (Str × Nat) :=
      match gumbo_get_attribute attributes "class".toList with
      | none => some ([], hidden)
      | some attr =>
        match strstr attr.value "dtText".toList with
        | none => some ([], hidden)
        | some _ =>
          match extract_text_hidden (.element tag attributes children) hidden with
          | none => none
          | some (t, hidden1) => some ([] ++ t ++ ['\n'], hidden1)
    match res1 with
    | none => none
    | some (res, hidden1) => find_definitions_loop_hidden children res hidden1
/-- The `for` loop of `find_definitions` with the hidden state. -/
def find_definitions_loop_hidden : List GumboNode → Str → Nat → Option (Str × Nat)
  | [], res, hidden => some (res, hidden)
  | child :: rest, res, hidden =>
    match find_definitions_hidden child hidden with
    | none => none
    | some (d, hidden1) => find_definitions_loop_hidden rest (res ++ d) hidden1
end

/-! ## `main`: the fetch, the output streams and the exit status

The HTTP client library and the parser are not part of the sources.  The
client calls are given their documented behaviour on an explicit description
of what the network does; the parser is a parameter. -/

/-- The result code `CURLE_OK` of the HTTP client library. -/
def CURLE_OK : Nat := 0

/-- The result code `CURLE_HTTP_RETURNED_ERROR`, which the library returns for
a response of status 400 or more when `CURLOPT_FAILONERROR` is set. -/
def CURLE_HTTP_RETURNED_ERROR : Nat := 22

/-- The result code `CURLE_BAD_FUNCTION_ARGUMENT`, which the library returns
when it is called without a handle. -/
def CURLE_BAD_FUNCTION_ARGUMENT : Nat := 43

/-- The exit status `EXIT_FAILURE`. -/
def EXIT_FAILURE : Nat := 1

/-- The options of an easy handle that matter here: the URL, whether the write
callback and its target were set, and `CURLOPT_FAILONERROR`. -/
structure CurlEasy where
  url : Option Str
  writefunction : Bool
  writedata : Bool
  failonerror : Bool
  deriving DecidableEq, Repr

/-- An option of `curl_easy_setopt` with its value. -/
inductive CURLoption where
  | CURLOPT_URL (url : Str)
  | CURLOPT_WRITEFUNCTION
  | CURLOPT_WRITEDATA
  | CURLOPT_FAILONERROR (onoff : Bool)
  deriving DecidableEq, Repr

/-- A handle as `curl_easy_init` returns it: every option at its default. -/
def curl_easy_init : CurlEasy := ⟨none, false, false, false⟩

/-- The call `curl_easy_setopt( curl, option, value )`; without a handle
nothing is set. -/
def curl_easy_setopt (curl : Option CurlEasy) (option : CURLoption) : Option CurlEasy :=
  match curl, option with
  | none, _ => none
  | some e, .CURLOPT_URL url => some ⟨some url, e.writefunction, e.writedata, e.failonerror⟩
  | some e, .CURLOPT_WRITEFUNCTION => some ⟨e.url, true, e.writedata, e.failonerror⟩
  | some e, .CURLOPT_WRITEDATA => some ⟨e.url, e.writefunction, true, e.failonerror⟩
  | some e, .CURLOPT_FAILONERROR onoff => some ⟨e.url, e.writefunction, e.writedata, onoff⟩

/-- What the network does with the request: a transport-level failure with its
result code (one other than `CURLE_OK`), after some chunks of data may have
arrived, or a complete HTTP
response with its status, its content type if it has one, and its body in the
chunks in which it arrives. -/
inductive Transfer where
  | failure (code : Nat) (chunks : List Str)
  | response (status : Nat) (content_type : Option Str) (chunks : List Str)
  deriving DecidableEq, Repr

/-- The function `WriteCallback( contents, size, nmemb, userp )` of the source:
the `size * nmemb` characters of `contents` are appended to the string behind
`userp`, and their number is returned. -/
def WriteCallback (contents : Str) (userp : Str) : Nat × Str :=
  (contents.length, userp ++ contents)

/-- The chunks of a transfer handed to `WriteCallback` one after the other,
with `response` as the string behind `userp`.  The callback returns the size
of each chunk, which is what the library expects of it. -/
def deliver : List Str → Str → Str
  | [], response => response
  | chunk :: rest, response => deliver rest (WriteCallback chunk response).2

/-- The call `curl_easy_perform( curl )` with the write callback and target of
the source: the result code and `response` after the call.  A complete
response gives `CURLE_OK` whatever its status, unless `CURLOPT_FAILONERROR` is
set and the status is 400 or more. -/
def curl_easy_perform (curl : Option CurlEasy) (transfer : Transfer) (response : Str) :
    Nat × Str :=
  match curl with
  | none => (CURLE_BAD_FUNCTION_ARGUMENT, response)
  | some e =>
    match transfer with
    | .failure code chunks => (code, deliver chunks response)
    | .response status _ chunks =>
      if e.failonerror = true ∧ 400 ≤ status then (CURLE_HTTP_RETURNED_ERROR, response)
      else (CURLE_OK, deliver chunks response)

/-- The call `curl_easy_getinfo( curl, CURLINFO_CONTENT_TYPE, &content_type )`:
the content type of the response, `none` (a null pointer) when there is
none. -/
def curl_easy_getinfo_content_type (curl : Option CurlEasy) (transfer : Transfer) :
    Option Str :=
  match curl, transfer with
  | some _, .response _ content_type _ => content_type
  | _, _ => none

/-- The surroundings of one run of `main`: whether `curl_easy_init` returns a
handle, what the network does, the messages of `curl_easy_strerror`, and the
root of the tree the parser builds from a markup. -/
structure Env where
  handle : Bool
  transfer : Transfer
  curl_easy_strerror : Nat → Str
  gumbo_parse : Str → GumboNode

/-- What a run of `main` leaves behind: what was written to standard output
and to standard error, the exit status, and the markups `scrape` was called
with. -/
structure Outcome where
  stdout : Str
  stderr : Str
  status : Nat
  scraped : List Str
  deriving DecidableEq, Repr

/-- The function `scrape( markup )`, with the parser as a parameter. -/
def scrape (gumbo_parse : Str → GumboNode) (markup : Str) : Option Str :=
  match find_definitions (gumbo_parse markup) with
  | none => none
  | some d => some ([] ++ d)

/-- The variables of `main` after the call of `curl_easy_perform`: the handle,
what was written to standard error so far, the result code `res` and the
string `response`. -/
structure Fetched where
  curl : Option CurlEasy
  stderr : Str
  res : Nat
  response : Str

/-- The first part of `main`, up to and including the call of
`curl_easy_perform`. -/
def main_fetch (env : Env) : Fetched :=
  let endpoint : Str := "https://www.merriam-webster.com/dictionary/esoteric".toList
  let response0 : Str := []
  let curl0 : Option CurlEasy := if env.handle = true then some curl_easy_init else none
  let err0 : Str := if curl0 = none then "failed to init curl".toList else []
  let curl1 := curl_easy_setopt curl0 (CURLoption.CURLOPT_URL endpoint)
  let curl2 := curl_easy_setopt curl1 CURLoption.CURLOPT_WRITEFUNCTION
  let curl3 := curl_easy_setopt curl2 CURLoption.CURLOPT_WRITEDATA
  let performed := curl_easy_perform curl3 env.transfer response0
  { curl := curl3, stderr := err0, res := performed.1, response := performed.2 }

/-- The function `main`.  The result is `none` where the source has no defined
behaviour: a `std::string` built from a null `content_type`. -/
def main (env : Env) : Option Outcome :=
  let fetched := main_fetch env
  if fetched.res ≠ CURLE_OK then
    some {
      stdout := []
      stderr := fetched.stderr ++ "Error sending HTTP request: ".toList
        ++ env.curl_easy_strerror fetched.res ++ ['\n']
      status := EXIT_FAILURE
      scraped := [] }
  else
    match curl_easy_getinfo_content_type fetched.curl env.transfer with
    | none => none
    | some content_type =>
      let out1 := "aaa: ".toList ++ content_type ++ ['\n']
      let out2 := out1 ++ fetched.response ++ ['\n']
      match scrape env.gumbo_parse fetched.response with
      | none => none
      | some text =>
        some {
          stdout := out2 ++ text ++ ['\n']
          stderr := fetched.stderr
          status := 0
          scraped := [fetched.response] }

end Scraper

/-! # `asInt` of `19_std_stringviews/main.cpp` -/

namespace StringViews

/-- A `std::string_view`, as the sequence of its characters. -/
abbrev Str := List Char

/-- The largest value of `int` (32 bits). -/
def INT_MAX : Int := 2147483647

/-- The smallest value of `int` (32 bits). -/
def INT_MIN : Int := -2147483648

/-- The values of `std::errc` that `std::from_chars` returns; `ok` is
`std::errc{}`. -/
inductive errc where
  | ok
  | invalid_argument
  | result_out_of_range
  deriving DecidableEq, Repr

/-- The result of `std::from_chars`: the offset of `ptr` from the start of the
input, and the error code. -/
structure from_chars_result where
  ptr : Nat
  ec : errc
  deriving DecidableEq, Repr

/-- The digit scan of `std::from_chars` in base 10: the characters are read as
long as they are decimal digits; `value` is the number read so far and `count`
the number of digits read. -/
def scan_digits : Str → Nat → Nat → Nat × Nat
  | [], value, count => (value, count)
  | c :: cs, value, count =>
    if c.isDigit then scan_digits cs (value * 10 + (c.toNat - '0'.toNat)) (count + 1)
    else (value, count)

/-- The call `std::from_chars( first, last, val )` for an `int` in base 10, on
the characters from `first` up to `last`: the result, and the value stored in
`val` if one is stored.  A minus sign is the only sign recognised and leading
white space is not skipped; without a digit the result is `invalid_argument`
with `ptr` at `first`; a number outside the range of `int` gives
`result_out_of_range`; in both cases `val` is left as it was. -/
def from_chars (s : Str) : from_chars_result × Option Int :=
  let negative : Bool := s.head? = some '-'
  let rest : Str := if negative then s.tail else s
  let scanned := scan_digits rest 0 0
  if scanned.2 = 0 then (⟨0, errc.invalid_argument⟩, none)
  else
    let value : Int := if negative then - (scanned.1 : Int) else (scanned.1 : Int)
    let ptr : Nat := (if negative then 1 else 0) + scanned.2
    if value < INT_MIN ∨ INT_MAX < value then (⟨ptr, errc.result_out_of_range⟩, none)
    else (⟨ptr, errc.ok⟩, some value)

/-- The function `asInt( sv )`: no value when `from_chars` returns an error
code, the value stored in `val` otherwise. -/
def asInt (sv : Str) : Option Int :=
  let converted := from_chars sv
  if converted.1.ec ≠ errc.ok then none
  else converted.2

/-- The leading number of a string in the words of the claim: an optional `-`
followed by the longest run of decimal digits, which must not be empty, read
in base 10; `none` when the string does not begin so. -/
def leading_number (s : Str) : Option Int :=
  let negative : Bool := s.head? = some '-'
  let digits : Str := (if negative then s.tail else s).takeWhile Char.isDigit
  let magnitude : Nat := digits.foldl (fun n c => n * 10 + (c.toNat - 48)) 0
  if digits = [] then none
  else if negative then some (- (magnitude : Int)) else some (magnitude : Int)

end StringViews

/-! # `Name` of `Cpp17_josuttis/15_std_optional/main.cpp` -/

namespace OptionalDemo

/-- A `std::string`, as the sequence of its characters. -/
abbrev Str := List Char

/-- The class `Name`: a first name, an optional middle name, a last name. -/
structure Name where
  first : Str
  middle : Option Str
  last : Str
  deriving DecidableEq, Repr

/-- The `operator<<` of `Name`: `strm` is what the stream holds before, the
result what it holds after. -/
def Name.operator_shl (strm : Str) (n : Name) : Str :=
  let strm1 := strm ++ n.first ++ [' ']
  let strm2 :=
    match n.middle with
    | some middle => strm1 ++ middle ++ [' ']
    | none => strm1
  strm2 ++ n.last

end OptionalDemo

/-! # `asInt` of `Cpp17_josuttis/15_std_optional/main.cpp` -/

namespace OptionalDemo

/-- The white-space characters that `std::stoi` skips at the start of its
input: space, tab, line feed, vertical tab, form feed, carriage return. -/
def isspace (c : Char) : Bool :=
  c = ' ' ∨ c = '\t' ∨ c = '\n' ∨ c = Char.ofNat 11 ∨ c = Char.ofNat 12 ∨ c = '\r'

/-- The exceptions that `std::stoi` throws. -/
inductive stoi_exception where
  | invalid_argument
  | out_of_range
  deriving DecidableEq, Repr

/-- The call `std::stoi( s )` in base 10: leading white space is skipped, then
an optional `+` or `-` and the longest run of decimal digits are read;
without a digit `std::invalid_argument` is thrown, and `std::out_of_range`
when the number is outside the range of `int`. -/
def stoi (s : Str) : Except stoi_exception Int :=
  let s1 : Str := s.dropWhile isspace
  let negative : Bool := s1.head? = some '-'
  let s2 : Str := if s1.head? = some '-' ∨ s1.head? = some '+' then s1.tail else s1
  let scanned := StringViews.scan_digits s2 0 0
  if scanned.2 = 0 then Except.error stoi_exception.invalid_argument
  else
    let value : Int := if negative then - (scanned.1 : Int) else (scanned.1 : Int)
    if value < StringViews.INT_MIN ∨ StringViews.INT_MAX < value then
      Except.error stoi_exception.out_of_range
    else Except.ok value

/-- The function `asInt( s )` of this file: the value of `std::stoi( s )`, no
value when it throws. -/
def asInt (s : Str) : Option Int :=
  match stoi s with
  | Except.ok value => some value
  | Except.error _ => none

end OptionalDemo

/-! # `CountCalls` of `9_CTAD/main.cpp` -/

namespace CTAD

/-- The class template `CountCalls`: the wrapped callback and the counter
`calls`.  The arguments of a call are one value of type `Args`; the callback
is a function of its arguments, as the lambda of the source is.  The counter
is a `long`, modelled by an integer: `++calls` is exact as long as the counter
is below the largest `long`. -/
structure CountCalls (Args R : Type) where
  callback : Args → R
  calls : Int

/-- The constructor `CountCalls( cb )`; `calls` starts from its initialiser 0. -/
def CountCalls.construct {Args R : Type} (cb : Args → R) : CountCalls Args R :=
  { callback := cb, calls := 0 }

/-- The member `operator()( args... )`: what it returns, and the object after
the call. -/
def CountCalls.operator_call {Args R : Type} (self : CountCalls Args R) (args : Args) :
    R × CountCalls Args R :=
  let self1 : CountCalls Args R := { self with calls := self.calls + 1 }
  (self1.callback args, self1)

/-- The member `count() const`: what it returns, and the object after the
call, which a `const` member leaves as it is. -/
def CountCalls.count {Args R : Type} (self : CountCalls Args R) : Int × CountCalls Args R :=
  (self.calls, self)

/-- One use of a `CountCalls` object: a call of `operator()` with arguments,
or a call of `count()`. -/
inductive Use (Args : Type) where
  | call (args : Args)
  | count

/-- A sequence of uses of an object, one after the other: the object after
the last of them. -/
def CountCalls.after {Args R : Type} (self : CountCalls Args R) :
    List (Use Args) → CountCalls Args R
  | [] => self
  | Use.call args :: rest => CountCalls.after (self.operator_call args).2 rest
  | Use.count :: rest => CountCalls.after self.count.2 rest

/-- The number of calls of `operator()` in a sequence of uses. -/
def invocations {Args : Type} : List (Use Args) → Nat
  | [] => 0
  | Use.call _ :: rest => invocations rest + 1
  | Use.count :: rest => invocations rest

end CTAD

/-! # `seq_accumulate` and `par_reduce` of `Cpp17_josuttis/22_ParallelSTLAlgorithms/main.cpp` -/

namespace ParallelSTL

/-- The largest value of `long` (64 bits). -/
def LONG_MAX : Int := 9223372036854775807

/-- The smallest value of `long` (64 bits). -/
def LONG_MIN : Int := -9223372036854775808

/-- The value of `max_size()` of a `std::vector<long>`: the largest number of
elements it can be asked to hold, 2^60 - 1 with 64-bit pointers and 8-byte
`long`. -/
def max_size : Nat := 1152921504606846975

/-- The sum `a + b` of two `long`: `none` where it is outside the range of
`long`, for which the language defines no behaviour. -/
def long_add (a b : Int) : Option Int :=
  if LONG_MIN ≤ a + b ∧ a + b ≤ LONG_MAX then some (a + b) else none

/-- The call `coll.reserve( n )` on an empty vector: it succeeds when `n` is at
most `max_size()` and the allocator can provide storage for `n` elements,
`capacity` being the largest number of elements it can provide in this run;
otherwise it throws (`std::length_error`, `std::bad_alloc`). -/
def reserve (capacity n : Nat) : Bool :=
  decide (n ≤ max_size ∧ n ≤ capacity)

/-- The loop that fills `coll`: `num` times, the sequence 1 2 3 4 is inserted
at the end. -/
def fill : Nat → List Int → List Int
  | 0, coll => coll
  | num + 1, coll => fill num (coll ++ [1, 2, 3, 4])

/-- The call `std::accumulate( first, last, init )` on `long`: the elements are
added to `init` from left to right; `none` when an addition leaves the range
of `long`. -/
def accumulate : List Int → Int → Option Int
  | [], init => some init
  | x :: rest, init =>
    match long_add init x with
    | none => none
    | some sum => accumulate rest sum

/-- How a call of `seq_accumulate` or `par_reduce` ends: it prints a sum, or
an exception leaves it before a sum is computed, or the language defines no
behaviour for it. -/
inductive Outcome where
  | printed (sum : Int)
  | thrown
  | undefined
  deriving DecidableEq, Repr

/-- The function `seq_accumulate( num )` for `num ≥ 0`, in a run in which the
allocator can provide storage for `capacity` elements. -/
def seq_accumulate (capacity num : Nat) : Outcome :=
  if LONG_MAX < ((num * 4 : Nat) : Int) then Outcome.undefined
  else if reserve capacity (num * 4) = false then Outcome.thrown
  else
    match accumulate (fill num []) 0 with
    | some sum => Outcome.printed sum
    | none => Outcome.undefined

/-- The generalized noncommutative sum of the C++ standard, for the addition
of `long`: the operands, in their order, are added in any grouping; the
result is `none` when one of the additions leaves the range of `long`. -/
inductive generalized_noncommutative_sum : List Int → Option Int → Prop where
  | single (a : Int) : generalized_noncommutative_sum [a] (some a)
  | split (l1 l2 : List Int) (x y : Int) :
      generalized_noncommutative_sum l1 (some x) →
      generalized_noncommutative_sum l2 (some y) →
      generalized_noncommutative_sum (l1 ++ l2) (long_add x y)
  | left (l1 l2 : List Int) :
      l2 ≠ [] → generalized_noncommutative_sum l1 none →
      generalized_noncommutative_sum (l1 ++ l2) none
  | right (l1 l2 : List Int) :
      l1 ≠ [] → generalized_noncommutative_sum l2 none →
      generalized_noncommutative_sum (l1 ++ l2) none

/-- The call `std::reduce( std::execution::par, first, last, init )`: the
standard allows as result every generalized sum of `init` and the elements,
that is every generalized noncommutative sum of a permutation of them. -/
def reduce (coll : List Int) (init : Int) (result : Option Int) : Prop :=
  ∃ operands : List Int, operands.Perm (init :: coll) ∧
    generalized_noncommutative_sum operands result

/-- The ways in which `par_reduce( num )` may end for `num ≥ 0`, in a run in
which the allocator can provide storage for `capacity` elements. -/
def par_reduce (capacity num : Nat) (outcome : Outcome) : Prop :=
  if LONG_MAX < ((num * 4 : Nat) : Int) then outcome = Outcome.undefined
  else if reserve capacity (num * 4) = false then outcome = Outcome.thrown
  else
    ∃ result, reduce (fill num []) 0 result ∧
      outcome = (match result with
        | some sum => Outcome.printed sum
        | none => Outcome.undefined)

end ParallelSTL

namespace Scraper

/-! ## Auxiliary lemmas -/

theorem substitute_of_not_mem (a b : Char) (s : Str) (h : a ∉ s) : substitute a b s = s := by
  induction s with
  | nil => rfl
  | cons c cs ih =>
    have hc : c ≠ a := fun e => h (by simp [e])
    have hcs : a ∉ cs := fun e => h (by simp [e])
    have ih1 := ih hcs
    simp only [substitute] at ih1 ⊢
    simp [hc, ih1]

theorem find_from_single (a : Char) : ∀ (rest : Str) (pos : Nat),
    (find_from [a] rest pos = none ∧ a ∉ rest) ∨
    (∃ pre post, rest = pre ++ a :: post ∧ a ∉ pre ∧ find_from [a] rest pos = some (pos + pre.length)) := by
  intro rest
  induction rest with
  | nil => intro pos; left; simp [find_from, List.isPrefixOf]
  | cons c cs ih =>
    intro pos
    by_cases hc : a = c
    · right
      refine ⟨[], cs, by simp [hc], by simp, ?_⟩
      simp [find_from, List.isPrefixOf, hc]
    · rcases ih (pos + 1) with ⟨h1, h2⟩ | ⟨pre, post, h1, h2, h3⟩
      · left
        refine ⟨?_, by simp [hc, h2]⟩
        simp [find_from, List.isPrefixOf, hc, h1]
      · right
        refine ⟨c :: pre, post, by simp [h1], by simp [hc, h2], ?_⟩
        simp [find_from, List.isPrefixOf, hc, h3]
        omega

theorem str_replace_loop_single (a b : Char) : ∀ (fuel : Nat) (pre rest : Str),
    rest.length < fuel →
    str_replace_loop [a] [b] fuel (pre ++ rest) pre.length = some (pre ++ substitute a b rest) := by
  intro fuel
  induction fuel with
  | zero => intro pre rest h; omega
  | succ f ih =>
    intro pre rest h
    have hfind : string_find (pre ++ rest) [a] pre.length = find_from [a] rest pre.length := by
      simp [string_find]
    rw [str_replace_loop, hfind]
    rcases find_from_single a rest pre.length with ⟨h1, h2⟩ | ⟨r1, r2, h1, h2, h3⟩
    · rw [h1, substitute_of_not_mem a b rest h2]
    · rw [h3]
      subst h1
      have hrep : string_replace (pre ++ (r1 ++ a :: r2)) (pre.length + r1.length) [a].length [b]
          = (pre ++ r1 ++ [b]) ++ r2 := by
        have e1 : pre ++ (r1 ++ a :: r2) = (pre ++ r1) ++ (a :: r2) := by simp
        have e2 : pre.length + r1.length = (pre ++ r1).length := by simp
        simp only [string_replace]
        rw [e1, e2, List.take_left, List.drop_append]
        simp
      have hpos : pre.length + r1.length + [b].length = (pre ++ r1 ++ [b]).length := by
        simp only [List.length_append, List.length_singleton]
      simp only [hrep, hpos]
      rw [ih (pre ++ r1 ++ [b]) r2 (by simp at h; omega)]
      have hs : substitute a b (r1 ++ a :: r2) = r1 ++ b :: substitute a b r2 := by
        have := substitute_of_not_mem a b r1 h2
        simp [substitute] at this ⊢
        exact this
      rw [hs]; simp

theorem str_replace_single (a b : Char) (s : Str) :
    str_replace [a] [b] s = some (substitute a b s) := by
  have := str_replace_loop_single a b (s.length + 1) [] s (by omega)
  simpa [str_replace] using this

theorem find_from_some (search : Str) : ∀ (rest : Str) (pos p : Nat),
    find_from search rest pos = some p → pos ≤ p ∧ p - pos + search.length ≤ rest.length := by
  intro rest
  induction rest with
  | nil =>
    intro pos p h
    cases search with
    | nil => simp [find_from, List.isPrefixOf] at h; subst h; simp
    | cons a as => simp [find_from, List.isPrefixOf] at h
  | cons c cs ih =>
    intro pos p h
    by_cases hp : search.isPrefixOf (c :: cs) = true
    · have hle := (List.isPrefixOf_iff_prefix.mp hp).length_le
      simp only [find_from, hp, if_true, Option.some.injEq] at h
      subst h
      simpa using hle
    · simp only [find_from, hp] at h
      have := ih (pos + 1) p (by simpa using h)
      simp only [List.length_cons]
      omega

theorem string_find_some (subject search : Str) (pos p : Nat)
    (h : string_find subject search pos = some p) :
    pos ≤ p ∧ p + search.length ≤ subject.length := by
  unfold string_find at h
  by_cases hlt : subject.length < pos
  · simp [hlt] at h
  · simp only [hlt, if_false] at h
    have := find_from_some search _ pos p h
    simp only [List.length_drop] at this
    omega

theorem str_replace_loop_fuel (search replace : Str) (hsearch : search ≠ []) :
    ∀ (fuel : Nat) (subject : Str) (pos : Nat), subject.length - pos < fuel →
      ∃ r, str_replace_loop search replace fuel subject pos = some r := by
  have hlen : 0 < search.length := List.length_pos.mpr hsearch
  intro fuel
  induction fuel with
  | zero => intro subject pos h; omega
  | succ f ih =>
    intro subject pos h
    rw [str_replace_loop]
    cases hfind : string_find subject search pos with
    | none => exact ⟨subject, rfl⟩
    | some p =>
      have hp := string_find_some subject search pos p hfind
      apply ih
      simp only [string_replace, List.length_append, List.length_take, List.length_drop]
      omega

theorem str_replace_loop_mono (search replace : Str) :
    ∀ (fuel extra : Nat) (subject : Str) (pos : Nat) (r : Str),
      str_replace_loop search replace fuel subject pos = some r →
      str_replace_loop search replace (fuel + extra) subject pos = some r := by
  intro fuel
  induction fuel with
  | zero => intro extra subject pos r h; simp [str_replace_loop] at h
  | succ f ih =>
    intro extra subject pos r h
    rw [Nat.add_right_comm, str_replace_loop]
    rw [str_replace_loop] at h
    cases hfind : string_find subject search pos with
    | none => simpa [hfind] using h
    | some p =>
      simp only [hfind] at h ⊢
      exact ih extra _ _ r h

theorem strstr_eq_none_iff (needle : Str) : ∀ haystack : Str,
    strstr haystack needle = none ↔ ¬ needle <:+: haystack := by
  intro haystack
  induction haystack with
  | nil => cases needle <;> simp [strstr, List.isPrefixOf]
  | cons c cs ih =>
    by_cases hp : needle.isPrefixOf (c :: cs) = true
    · have : needle <+: c :: cs := List.isPrefixOf_iff_prefix.mp hp
      simp [strstr, hp, List.infix_cons_iff, this]
    · have hn : ¬ needle <+: c :: cs := fun h => hp (List.isPrefixOf_iff_prefix.mpr h)
      simp only [strstr, hp, List.infix_cons_iff, hn, false_or]
      simpa using ih

mutual
theorem GumboNode.induction_on {P : GumboNode → Prop}
    (htext : ∀ t, P (.text t)) (hother : ∀ k, P (.other k))
    (helement : ∀ tag attributes children, (∀ c ∈ children, P c) →
      P (.element tag attributes children)) : ∀ n, P n
  | .text t => htext t
  | .other k => hother k
  | .element tag attributes children =>
    helement tag attributes children
      (GumboNode.induction_list htext hother helement children)
theorem GumboNode.induction_list {P : GumboNode → Prop}
    (htext : ∀ t, P (.text t)) (hother : ∀ k, P (.other k))
    (helement : ∀ tag attributes children, (∀ c ∈ children, P c) →
      P (.element tag attributes children)) : ∀ (l : List GumboNode), ∀ c ∈ l, P c
  | [], _, h => absurd h (List.not_mem_nil _)
  | d :: ds, c, h =>
    (List.mem_cons.mp h).elim
      (fun e => e ▸ GumboNode.induction_on htext hother helement d)
      (fun h1 => GumboNode.induction_list htext hother helement ds c h1)
end

theorem exists_forall₂ {α β : Type} (R : α → β → Prop) :
    ∀ l : List α, (∀ a ∈ l, ∃ b, R a b) → ∃ bs, List.Forall₂ R l bs
  | [], _ => ⟨[], List.Forall₂.nil⟩
  | a :: as, h =>
    let ⟨b, hb⟩ := h a (List.mem_cons_self a as)
    let ⟨bs, hbs⟩ := exists_forall₂ R as (fun x hx => h x (List.mem_cons_of_mem a hx))
    ⟨b :: bs, List.Forall₂.cons hb hbs⟩

theorem extract_text_loop_eq : ∀ (children : List GumboNode) (texts : List Str) (i : Nat)
    (contents : Str),
    List.Forall₂ (fun c t => extract_text c = some t) children texts →
    extract_text_loop children i contents
      = some (contents ++ (texts.map (substitute ':' '>')).flatten) := by
  intro children texts i contents h
  induction h generalizing i contents with
  | nil => simp [extract_text_loop]
  | cons hc _ ih =>
    rw [extract_text_loop, hc]
    simp only [str_replace_single, List.append_nil, ite_self]
    rw [ih]
    simp

theorem extract_text_total : ∀ n : GumboNode, ∃ t, extract_text n = some t := by
  intro n
  induction n using GumboNode.induction_on with
  | htext t => exact ⟨t, by simp [extract_text]⟩
  | hother k => exact ⟨[], by simp [extract_text]⟩
  | helement tag attributes children ih =>
    obtain ⟨texts, ht⟩ := exists_forall₂ _ children ih
    by_cases h : tag ≠ GumboTag.GUMBO_TAG_SCRIPT ∧ tag ≠ GumboTag.GUMBO_TAG_STYLE
    · exact ⟨_, by rw [extract_text, if_pos h, extract_text_loop_eq children texts 0 [] ht]⟩
    · exact ⟨[], by rw [extract_text, if_neg h]⟩

theorem find_definitions_loop_eq : ∀ (children : List GumboNode) (ds : List Str) (res : Str),
    List.Forall₂ (fun c d => find_definitions c = some d) children ds →
    find_definitions_loop children res = some (res ++ ds.flatten) := by
  intro children ds res h
  induction h generalizing res with
  | nil => simp [find_definitions_loop]
  | cons hc _ ih =>
    rw [find_definitions_loop, hc]
    simp only
    rw [ih]
    simp


theorem find_definitions_total : ∀ n : GumboNode, ∃ d, find_definitions n = some d := by
  intro n
  induction n using GumboNode.induction_on with
  | htext t => exact ⟨[], by simp [find_definitions]⟩
  | hother k => exact ⟨[], by simp [find_definitions]⟩
  | helement tag attributes children ih =>
    obtain ⟨ds, hds⟩ := exists_forall₂ _ children ih
    obtain ⟨t, ht⟩ := extract_text_total (.element tag attributes children)
    rw [find_definitions]
    cases hattr : gumbo_get_attribute attributes "class".toList with
    | none =>
      simp only [find_definitions_loop_eq children ds _ hds]
      exact ⟨_, rfl⟩
    | some attr =>
      cases hstr : strstr attr.value "dtText".toList with
      | none =>
        simp only [hstr, find_definitions_loop_eq children ds _ hds]
        exact ⟨_, rfl⟩
      | some r =>
        simp only [hstr, ht, find_definitions_loop_eq children ds _ hds]
        exact ⟨_, rfl⟩

theorem mem_nodes_self : ∀ n : GumboNode, n ∈ nodes n
  | .text _ => by simp [nodes]
  | .other _ => by simp [nodes]
  | .element _ _ _ => by simp [nodes]

theorem mem_nodes_list {m : GumboNode} : ∀ {l : List GumboNode} {c : GumboNode},
    c ∈ l → m ∈ nodes c → m ∈ nodes_list l
  | [], _, h, _ => absurd h (List.not_mem_nil _)
  | d :: ds, c, h, hm => by
    rw [nodes_list, List.mem_append]
    rcases List.mem_cons.mp h with e | h1
    · left; rw [← e]; exact hm
    · right; exact mem_nodes_list h1 hm

theorem find_definitions_unmarked (tag : GumboTag) (attributes : List GumboAttribute)
    (children : List GumboNode)
    (hclass : gumbo_get_attribute attributes "class".toList = none ∨
      ∃ attr, gumbo_get_attribute attributes "class".toList = some attr ∧
        ¬ "dtText".toList <:+: attr.value) :
    find_definitions (.element tag attributes children) = find_definitions_loop children [] := by
  rw [find_definitions]
  rcases hclass with hnone | ⟨attr, hattr, hvalue⟩
  · simp only [hnone]
  · have hstr := (strstr_eq_none_iff _ _).mpr hvalue
    simp only [hattr, hstr]

theorem find_definitions_marked (tag : GumboTag) (attributes : List GumboAttribute)
    (children : List GumboNode) (attr : GumboAttribute) (text : Str)
    (hclass : gumbo_get_attribute attributes "class".toList = some attr)
    (hvalue : "dtText".toList <:+: attr.value)
    (htext : extract_text (.element tag attributes children) = some text) :
    find_definitions (.element tag attributes children)
      = find_definitions_loop children (text ++ ['\n']) := by
  cases hstr : strstr attr.value "dtText".toList with
  | none => exact absurd hvalue ((strstr_eq_none_iff _ _).mp hstr)
  | some r =>
    rw [find_definitions]
    simp only [hclass, hstr, htext, List.nil_append]

theorem find_definitions_loop_of_empty : ∀ (children : List GumboNode) (res : Str),
    (∀ c ∈ children, find_definitions c = some []) →
    find_definitions_loop children res = some res
  | [], res, _ => by rw [find_definitions_loop]
  | c :: cs, res, h => by
    rw [find_definitions_loop, h c (List.mem_cons_self c cs)]
    simp only [List.append_nil]
    exact find_definitions_loop_of_empty cs res (fun d hd => h d (List.mem_cons_of_mem c hd))

theorem not_has_marker_iff (tag : GumboTag) (attributes : List GumboAttribute)
    (children : List GumboNode) (h : ¬ has_marker (.element tag attributes children)) :
    gumbo_get_attribute attributes "class".toList = none ∨
      ∃ attr, gumbo_get_attribute attributes "class".toList = some attr ∧
        ¬ "dtText".toList <:+: attr.value := by
  cases hattr : gumbo_get_attribute attributes "class".toList with
  | none => exact Or.inl rfl
  | some attr =>
    refine Or.inr ⟨attr, rfl, fun hv => h ?_⟩
    exact ⟨attr, hattr, hv⟩

theorem substitute_idem (a b : Char) (hab : b ≠ a) (s : Str) :
    substitute a b (substitute a b s) = substitute a b s := by
  simp only [substitute, List.map_map]
  apply List.map_congr_left
  intro c _
  by_cases hc : c = a
  · simp [hc, hab]
  · simp [hc]

theorem extract_text_single_text (tag : GumboTag) (attributes : List GumboAttribute)
    (text : Str)
    (hscript : tag ≠ GumboTag.GUMBO_TAG_SCRIPT) (hstyle : tag ≠ GumboTag.GUMBO_TAG_STYLE) :
    extract_text (.element tag attributes [.text text]) = some (substitute ':' '>' text) := by
  rw [extract_text, if_pos ⟨hscript, hstyle⟩,
    extract_text_loop_eq [.text text] [text] 0 []
      (List.Forall₂.cons (by rw [extract_text]) List.Forall₂.nil)]
  simp

/-! ## The claims -/

/-- C1: for an Element node whose tag is neither script nor style, every child
has an extracted text, and `extract_text` of the node is the concatenation, in
document order and with nothing in between, of the children's extracted texts
with every `:` replaced by `>`. -/
theorem extract_text_element_concat (tag : GumboTag) (attributes : List GumboAttribute)
    (children : List GumboNode)
    (hscript : tag ≠ GumboTag.GUMBO_TAG_SCRIPT) (hstyle : tag ≠ GumboTag.GUMBO_TAG_STYLE) :
    ∃ texts : List Str,
      List.Forall₂ (fun child text => extract_text child = some text) children texts ∧
      extract_text (.element tag attributes children)
        = some (texts.map (substitute ':' '>')).flatten := by
  obtain ⟨texts, ht⟩ := exists_forall₂ _ children (fun c _ => extract_text_total c)
  refine ⟨texts, ht, ?_⟩
  rw [extract_text, if_pos ⟨hscript, hstyle⟩, extract_text_loop_eq children texts 0 [] ht]
  simp

/-- Witness of C1: a `div` with the children `a:b`, a comment and `c:`. -/
theorem extract_text_element_concat_witness :
    ∃ texts : List Str,
      List.Forall₂ (fun child text => extract_text child = some text)
        [.text "a:b".toList, .other .GUMBO_NODE_COMMENT, .text "c:".toList] texts ∧
      extract_text (.element .GUMBO_TAG_DIV []
          [.text "a:b".toList, .other .GUMBO_NODE_COMMENT, .text "c:".toList])
        = some (texts.map (substitute ':' '>')).flatten :=
  extract_text_element_concat .GUMBO_TAG_DIV []
    [.text "a:b".toList, .other .GUMBO_NODE_COMMENT, .text "c:".toList] (by decide) (by decide)

/-- C2: for an Element node that has a class attribute whose value contains
`dtText`, `find_definitions` of the node is `extract_text` of the node, then
one newline, then the concatenation in document order of `find_definitions`
of the children. -/
theorem find_definitions_marker (tag : GumboTag) (attributes : List GumboAttribute)
    (children : List GumboNode) (attr : GumboAttribute)
    (hclass : gumbo_get_attribute attributes "class".toList = some attr)
    (hvalue : "dtText".toList <:+: attr.value) :
    ∃ (text : Str) (ds : List Str),
      extract_text (.element tag attributes children) = some text ∧
      List.Forall₂ (fun child d => find_definitions child = some d) children ds ∧
      find_definitions (.element tag attributes children)
        = some (text ++ ['\n'] ++ ds.flatten) := by
  obtain ⟨ds, hds⟩ := exists_forall₂ _ children (fun c _ => find_definitions_total c)
  obtain ⟨t, ht⟩ := extract_text_total (.element tag attributes children)
  refine ⟨t, ds, ht, hds, ?_⟩
  rw [find_definitions_marked tag attributes children attr t hclass hvalue ht,
    find_definitions_loop_eq children ds _ hds]

/-- Witness of C2: a `div` of class `x dtText y` with a text and a marked
`span` as children. -/
theorem find_definitions_marker_witness :
    ∃ (text : Str) (ds : List Str),
      extract_text (.element .GUMBO_TAG_DIV [⟨"class".toList, "x dtText y".toList⟩]
        [.text "a".toList,
          .element .GUMBO_TAG_SPAN [⟨"class".toList, "dtText".toList⟩] [.text "b".toList]])
        = some text ∧
      List.Forall₂ (fun child d => find_definitions child = some d)
        [.text "a".toList,
          .element .GUMBO_TAG_SPAN [⟨"class".toList, "dtText".toList⟩] [.text "b".toList]] ds ∧
      find_definitions (.element .GUMBO_TAG_DIV [⟨"class".toList, "x dtText y".toList⟩]
        [.text "a".toList,
          .element .GUMBO_TAG_SPAN [⟨"class".toList, "dtText".toList⟩] [.text "b".toList]])
        = some (text ++ ['\n'] ++ ds.flatten) :=
  find_definitions_marker .GUMBO_TAG_DIV [⟨"class".toList, "x dtText y".toList⟩]
    [.text "a".toList,
      .element .GUMBO_TAG_SPAN [⟨"class".toList, "dtText".toList⟩] [.text "b".toList]]
    ⟨"class".toList, "x dtText y".toList⟩ (by decide) ⟨"x ".toList, " y".toList, by decide⟩

/-- C3: for an Element node that has no class attribute, or whose class
attribute value does not contain `dtText`, `find_definitions` of the node is
exactly the concatenation in document order of `find_definitions` of the
children. -/
theorem find_definitions_no_marker (tag : GumboTag) (attributes : List GumboAttribute)
    (children : List GumboNode)
    (hclass : gumbo_get_attribute attributes "class".toList = none ∨
      ∃ attr, gumbo_get_attribute attributes "class".toList = some attr ∧
        ¬ "dtText".toList <:+: attr.value) :
    ∃ ds : List Str,
      List.Forall₂ (fun child d => find_definitions child = some d) children ds ∧
      find_definitions (.element tag attributes children) = some ds.flatten := by
  obtain ⟨ds, hds⟩ := exists_forall₂ _ children (fun c _ => find_definitions_total c)
  refine ⟨ds, hds, ?_⟩
  rw [find_definitions_unmarked tag attributes children hclass,
    find_definitions_loop_eq children ds _ hds, List.nil_append]

/-- Witness of C3: a `div` of class `dtTex` whose child is a marked `span`. -/
theorem find_definitions_no_marker_witness :
    ∃ ds : List Str,
      List.Forall₂ (fun child d => find_definitions child = some d)
        [.element .GUMBO_TAG_SPAN [⟨"class".toList, "dtText".toList⟩] [.text "b".toList]] ds ∧
      find_definitions (.element .GUMBO_TAG_DIV [⟨"class".toList, "dtTex".toList⟩]
        [.element .GUMBO_TAG_SPAN [⟨"class".toList, "dtText".toList⟩] [.text "b".toList]])
        = some ds.flatten :=
  find_definitions_no_marker .GUMBO_TAG_DIV [⟨"class".toList, "dtTex".toList⟩]
    [.element .GUMBO_TAG_SPAN [⟨"class".toList, "dtText".toList⟩] [.text "b".toList]]
    (Or.inr ⟨⟨"class".toList, "dtTex".toList⟩, by decide, by decide⟩)

/-- C4: for a Text node, `extract_text` is the node's literal text, unchanged. -/
theorem extract_text_text (text : Str) : extract_text (.text text) = some text := by
  rw [extract_text]

/-- C5: for an Element node whose tag is script or style, `extract_text` is
the empty string, whatever the attributes and children. -/
theorem extract_text_script_style (attributes : List GumboAttribute)
    (children : List GumboNode) :
    extract_text (.element .GUMBO_TAG_SCRIPT attributes children) = some [] ∧
    extract_text (.element .GUMBO_TAG_STYLE attributes children) = some [] := by
  constructor <;> simp [extract_text]

/-- C6: for a node that is neither a Text node nor an Element node,
`extract_text` is the empty string. -/
theorem extract_text_other (node : GumboNode)
    (htext : ∀ text, node ≠ .text text)
    (helement : ∀ tag attributes children, node ≠ .element tag attributes children) :
    extract_text node = some [] := by
  cases node with
  | text t => exact absurd rfl (htext t)
  | element tag attributes children => exact absurd rfl (helement tag attributes children)
  | other k => rw [extract_text]

/-- Witness of C6: a comment node. -/
theorem extract_text_other_witness :
    extract_text (.other .GUMBO_NODE_COMMENT) = some [] :=
  extract_text_other (.other .GUMBO_NODE_COMMENT) (fun _ h => GumboNode.noConfusion h)
    (fun _ _ _ h => GumboNode.noConfusion h)

/-- C7: for a node that is not an Element, `find_definitions` is the empty
string. -/
theorem find_definitions_not_element (node : GumboNode)
    (helement : ∀ tag attributes children, node ≠ .element tag attributes children) :
    find_definitions node = some [] := by
  cases node with
  | text t => rw [find_definitions]
  | element tag attributes children => exact absurd rfl (helement tag attributes children)
  | other k => rw [find_definitions]

/-- Witness of C7: a Text node whose text is `dtText: a`. -/
theorem find_definitions_not_element_witness :
    find_definitions (.text "dtText: a".toList) = some [] :=
  find_definitions_not_element (.text "dtText: a".toList)
    (fun _ _ _ h => GumboNode.noConfusion h)

/-- C8: in a tree none of whose nodes is an Element with a class attribute
whose value contains `dtText`, `find_definitions` of the root is the empty
string. -/
theorem find_definitions_no_marker_tree (root : GumboNode)
    (hnone : ∀ n ∈ nodes root, ¬ has_marker n) : find_definitions root = some [] := by
  induction root using GumboNode.induction_on with
  | htext t => rw [find_definitions]
  | hother k => rw [find_definitions]
  | helement tag attributes children ih =>
    have hroot := not_has_marker_iff tag attributes children (hnone _ (mem_nodes_self _))
    rw [find_definitions_unmarked tag attributes children hroot]
    apply find_definitions_loop_of_empty
    intro c hc
    apply ih c hc
    intro n hn
    apply hnone
    rw [nodes]
    exact List.mem_cons_of_mem _ (mem_nodes_list hc hn)

/-- Witness of C8: a `div` of class `text` holding the text `dtText:`, a
`span` without attributes around a text, and a comment. -/
theorem find_definitions_no_marker_tree_witness :
    find_definitions (.element .GUMBO_TAG_DIV [⟨"class".toList, "text".toList⟩]
      [.text "dtText:".toList,
        .element .GUMBO_TAG_SPAN [] [.text "a:b".toList],
        .other .GUMBO_NODE_COMMENT]) = some [] :=
  find_definitions_no_marker_tree _ (by
    intro n hn
    simp only [nodes, nodes_list, List.mem_cons, List.mem_append, List.mem_singleton,
      List.not_mem_nil, or_false] at hn
    rcases hn with rfl | rfl | (rfl | rfl) | rfl
    · rintro ⟨attr, hattr, hvalue⟩
      have : attr = ⟨"class".toList, "text".toList⟩ := by
        simpa [gumbo_get_attribute] using hattr.symm
      subst this
      revert hvalue
      decide
    · exact fun h => h
    · rintro ⟨attr, hattr, _⟩
      simp [gumbo_get_attribute] at hattr
    · exact fun h => h
    · exact fun h => h)

/-- C9, as amended: for every string `t` and every Element whose tag is
neither script nor style, whose class attribute is `dtText` and whose only
child is a Text node of content `t`, `find_definitions` is `t` with every `:`
replaced by `>`, followed by one newline. -/
theorem find_definitions_text_child (t : Str) (tag : GumboTag)
    (attributes : List GumboAttribute) (attr : GumboAttribute)
    (hscript : tag ≠ GumboTag.GUMBO_TAG_SCRIPT) (hstyle : tag ≠ GumboTag.GUMBO_TAG_STYLE)
    (hclass : gumbo_get_attribute attributes "class".toList = some attr)
    (hvalue : attr.value = "dtText".toList) :
    find_definitions (.element tag attributes [.text t])
      = some (substitute ':' '>' t ++ ['\n']) := by
  rw [find_definitions_marked tag attributes [.text t] attr (substitute ':' '>' t) hclass
      (by rw [hvalue]) (extract_text_single_text tag attributes t hscript hstyle)]
  exact find_definitions_loop_of_empty _ _ (by
    intro c hc
    rw [List.mem_singleton.mp hc, find_definitions])

/-- Witness of C9: the two scenarios, `hello` and `a:b` in a `div` of class
`dtText`. -/
theorem find_definitions_text_child_witness :
    find_definitions (.element .GUMBO_TAG_DIV [⟨"class".toList, "dtText".toList⟩]
      [.text "hello".toList]) = some "hello\n".toList ∧
    find_definitions (.element .GUMBO_TAG_DIV [⟨"class".toList, "dtText".toList⟩]
      [.text "a:b".toList]) = some "a>b\n".toList :=
  ⟨(find_definitions_text_child "hello".toList .GUMBO_TAG_DIV
      [⟨"class".toList, "dtText".toList⟩] ⟨"class".toList, "dtText".toList⟩
      (by decide) (by decide) (by decide) rfl).trans (by decide),
   (find_definitions_text_child "a:b".toList .GUMBO_TAG_DIV
      [⟨"class".toList, "dtText".toList⟩] ⟨"class".toList, "dtText".toList⟩
      (by decide) (by decide) (by decide) rfl).trans (by decide)⟩

/-- Counterexample to C9 as stated: a `script` Element of class `dtText` whose
only child is the Text node `hello` gives a lone newline, not `hello` and a
newline. -/
theorem find_definitions_text_child_counterexample :
    find_definitions (.element .GUMBO_TAG_SCRIPT [⟨"class".toList, "dtText".toList⟩]
      [.text "hello".toList]) = some "\n".toList ∧
    find_definitions (.element .GUMBO_TAG_SCRIPT [⟨"class".toList, "dtText".toList⟩]
      [.text "hello".toList]) ≠ some (substitute ':' '>' "hello".toList ++ ['\n']) := by
  constructor <;> decide

/-- C10, as amended: for every string `x` and two nested Elements whose tags
are neither script nor style, both of class `dtText`, the inner one with the
Text node `x` as only child, `find_definitions` of the outer one is `x` with
every `:` replaced by `>` and a newline, twice. -/
theorem find_definitions_nested (x : Str) (outer inner : GumboTag)
    (outer_attributes inner_attributes : List GumboAttribute)
    (outer_attr inner_attr : GumboAttribute)
    (houter_script : outer ≠ GumboTag.GUMBO_TAG_SCRIPT)
    (houter_style : outer ≠ GumboTag.GUMBO_TAG_STYLE)
    (hinner_script : inner ≠ GumboTag.GUMBO_TAG_SCRIPT)
    (hinner_style : inner ≠ GumboTag.GUMBO_TAG_STYLE)
    (houter_class : gumbo_get_attribute outer_attributes "class".toList = some outer_attr)
    (houter_value : outer_attr.value = "dtText".toList)
    (hinner_class : gumbo_get_attribute inner_attributes "class".toList = some inner_attr)
    (hinner_value : inner_attr.value = "dtText".toList) :
    find_definitions
        (.element outer outer_attributes [.element inner inner_attributes [.text x]])
      = some (substitute ':' '>' x ++ ['\n'] ++ substitute ':' '>' x ++ ['\n']) := by
  have hin := extract_text_single_text inner inner_attributes x hinner_script hinner_style
  have hout : extract_text
      (.element outer outer_attributes [.element inner inner_attributes [.text x]])
      = some (substitute ':' '>' x) := by
    rw [extract_text, if_pos ⟨houter_script, houter_style⟩,
      extract_text_loop_eq _ [substitute ':' '>' x] 0 []
        (List.Forall₂.cons hin List.Forall₂.nil)]
    simp [substitute_idem ':' '>' (by decide)]
  have hfin : find_definitions (.element inner inner_attributes [.text x])
      = some (substitute ':' '>' x ++ ['\n']) := by
    rw [find_definitions_marked inner inner_attributes [.text x] inner_attr _ hinner_class
      (by rw [hinner_value]) hin]
    exact find_definitions_loop_of_empty _ _ (by
      intro c hc
      rw [List.mem_singleton.mp hc, find_definitions])
  rw [find_definitions_marked outer outer_attributes _ outer_attr _ houter_class
    (by rw [houter_value]) hout,
    find_definitions_loop_eq _ [substitute ':' '>' x ++ ['\n']] _
      (List.Forall₂.cons hfin List.Forall₂.nil)]
  simp

/-- Witness of C10: the scenario, a `span` of class `dtText` around `x` inside
a `div` of class `dtText`. -/
theorem find_definitions_nested_witness :
    find_definitions (.element .GUMBO_TAG_DIV [⟨"class".toList, "dtText".toList⟩]
      [.element .GUMBO_TAG_SPAN [⟨"class".toList, "dtText".toList⟩] [.text "x".toList]])
      = some "x\nx\n".toList :=
  (find_definitions_nested "x".toList .GUMBO_TAG_DIV .GUMBO_TAG_SPAN
    [⟨"class".toList, "dtText".toList⟩] [⟨"class".toList, "dtText".toList⟩]
    ⟨"class".toList, "dtText".toList⟩ ⟨"class".toList, "dtText".toList⟩
    (by decide) (by decide) (by decide) (by decide) (by decide) rfl (by decide) rfl).trans
    (by decide)

/-- Counterexample to C10 as stated: with a `script` Element of class `dtText`
around the Text node `x` inside a `div` of class `dtText`, the result is two
newlines, not `x` and a newline twice. -/
theorem find_definitions_nested_counterexample :
    find_definitions (.element .GUMBO_TAG_DIV [⟨"class".toList, "dtText".toList⟩]
      [.element .GUMBO_TAG_SCRIPT [⟨"class".toList, "dtText".toList⟩] [.text "x".toList]])
      = some "\n\n".toList ∧
    find_definitions (.element .GUMBO_TAG_DIV [⟨"class".toList, "dtText".toList⟩]
      [.element .GUMBO_TAG_SCRIPT [⟨"class".toList, "dtText".toList⟩] [.text "x".toList]])
      ≠ some (substitute ':' '>' "x".toList ++ ['\n'] ++ substitute ':' '>' "x".toList ++ ['\n']) := by
  constructor <;> decide

theorem substitute_append (a b : Char) (s t : Str) :
    substitute a b (s ++ t) = substitute a b s ++ substitute a b t := by
  simp [substitute]

theorem extract_text_loop_flat : ∀ children : List GumboNode,
    (∀ c ∈ children, ∃ t, extract_text c = some t ∧
      substitute ':' '>' t = substitute ':' '>' (text_contents c).flatten) →
    ∃ texts, List.Forall₂ (fun c t => extract_text c = some t) children texts ∧
      (texts.map (substitute ':' '>')).flatten
        = substitute ':' '>' (text_contents_list children).flatten
  | [], _ => ⟨[], List.Forall₂.nil, by simp [text_contents_list, substitute]⟩
  | c :: cs, h => by
    obtain ⟨t, ht, hsub⟩ := h c (List.mem_cons_self c cs)
    obtain ⟨ts, hts, hflat⟩ :=
      extract_text_loop_flat cs (fun d hd => h d (List.mem_cons_of_mem c hd))
    refine ⟨t :: ts, List.Forall₂.cons ht hts, ?_⟩
    rw [text_contents_list, List.flatten_append, substitute_append, ← hflat, ← hsub]
    simp

theorem extract_text_flat : ∀ n : GumboNode, ∃ t, extract_text n = some t ∧
    substitute ':' '>' t = substitute ':' '>' (text_contents n).flatten := by
  intro n
  induction n using GumboNode.induction_on with
  | htext t => exact ⟨t, by rw [extract_text], by simp [text_contents]⟩
  | hother k => exact ⟨[], by rw [extract_text], by simp [text_contents]⟩
  | helement tag attributes children ih =>
    by_cases h : tag ≠ GumboTag.GUMBO_TAG_SCRIPT ∧ tag ≠ GumboTag.GUMBO_TAG_STYLE
    · obtain ⟨texts, hts, hflat⟩ := extract_text_loop_flat children ih
      have hn : ¬ (tag = GumboTag.GUMBO_TAG_SCRIPT ∨ tag = GumboTag.GUMBO_TAG_STYLE) := by
        rintro (e | e)
        · exact h.1 e
        · exact h.2 e
      refine ⟨_, by rw [extract_text, if_pos h, extract_text_loop_eq children texts 0 [] hts],
        ?_⟩
      rw [text_contents, if_neg hn, List.nil_append, hflat,
        substitute_idem ':' '>' (by decide)]
    · have hn : tag = GumboTag.GUMBO_TAG_SCRIPT ∨ tag = GumboTag.GUMBO_TAG_STYLE := by
        by_cases e : tag = GumboTag.GUMBO_TAG_SCRIPT
        · exact Or.inl e
        · by_cases e2 : tag = GumboTag.GUMBO_TAG_STYLE
          · exact Or.inr e2
          · exact absurd ⟨e, e2⟩ h
      exact ⟨[], by rw [extract_text, if_neg h], by rw [text_contents, if_pos hn]; rfl⟩

/-- C11: for an Element node, `extract_text` is the concatenation in document
order of the contents of the Text nodes reachable through Elements none of
which is a script or style element, with every `:` replaced by `>` once in
the flattened text. -/
theorem extract_text_element_flat (tag : GumboTag) (attributes : List GumboAttribute)
    (children : List GumboNode) :
    extract_text (.element tag attributes children)
      = some (substitute ':' '>'
          (text_contents (.element tag attributes children)).flatten) := by
  obtain ⟨t, ht, hsub⟩ := extract_text_flat (.element tag attributes children)
  rw [ht, ← hsub]
  by_cases h : tag ≠ GumboTag.GUMBO_TAG_SCRIPT ∧ tag ≠ GumboTag.GUMBO_TAG_STYLE
  · obtain ⟨texts, hts⟩ := exists_forall₂ _ children (fun c _ => extract_text_total c)
    rw [extract_text, if_pos h, extract_text_loop_eq children texts 0 [] hts] at ht
    have e : t = (texts.map (substitute ':' '>')).flatten := by
      simpa using (Option.some.inj ht).symm
    rw [e]
    have hidem : ∀ ts : List Str, substitute ':' '>' (ts.map (substitute ':' '>')).flatten
        = (ts.map (substitute ':' '>')).flatten := by
      intro ts
      induction ts with
      | nil => rfl
      | cons x xs ih =>
        simp only [List.map_cons, List.flatten_cons, substitute_append, ih,
          substitute_idem ':' '>' (by decide)]
    rw [hidem]
  · rw [extract_text, if_neg h] at ht
    rw [← Option.some.inj ht]
    rfl

theorem find_definitions_loop_lines : ∀ children : List GumboNode,
    (∀ c ∈ children, ∃ lines,
      List.Forall₂ (fun e line => ∃ t, extract_text e = some t ∧ line = t ++ ['\n'])
        (marked_elements c) lines ∧
      find_definitions c = some lines.flatten) →
    ∃ lines ds,
      List.Forall₂ (fun e line => ∃ t, extract_text e = some t ∧ line = t ++ ['\n'])
        ((nodes_list children).filter (fun n => decide (has_marker n))) lines ∧
      List.Forall₂ (fun c d => find_definitions c = some d) children ds ∧
      ds.flatten = lines.flatten
  | [], _ => ⟨[], [], by simp [nodes_list], List.Forall₂.nil, rfl⟩
  | c :: cs, h => by
    obtain ⟨l1, hl1, hc⟩ := h c (List.mem_cons_self c cs)
    obtain ⟨l2, ds, hl2, hds, hflat⟩ :=
      find_definitions_loop_lines cs (fun d hd => h d (List.mem_cons_of_mem c hd))
    refine ⟨l1 ++ l2, l1.flatten :: ds, ?_, List.Forall₂.cons hc hds, ?_⟩
    · rw [nodes_list, List.filter_append]
      exact List.rel_append hl1 hl2
    · simp [hflat]

theorem find_definitions_lines : ∀ root : GumboNode, ∃ lines,
    List.Forall₂ (fun e line => ∃ t, extract_text e = some t ∧ line = t ++ ['\n'])
      (marked_elements root) lines ∧
    find_definitions root = some lines.flatten := by
  intro root
  induction root using GumboNode.induction_on with
  | htext t =>
    exact ⟨[], by simp [marked_elements, nodes, has_marker], by rw [find_definitions]; rfl⟩
  | hother k =>
    exact ⟨[], by simp [marked_elements, nodes, has_marker], by rw [find_definitions]; rfl⟩
  | helement tag attributes children ih =>
    obtain ⟨lines, ds, hlines, hds, hflat⟩ := find_definitions_loop_lines children ih
    by_cases hm : has_marker (.element tag attributes children)
    · obtain ⟨t, ht⟩ := extract_text_total (.element tag attributes children)
      obtain ⟨attr, hclass, hvalue⟩ := hm
      refine ⟨(t ++ ['\n']) :: lines, ?_, ?_⟩
      · have hm1 : has_marker (.element tag attributes children) := ⟨attr, hclass, hvalue⟩
        simp only [marked_elements, nodes, List.filter_cons, hm1, decide_True, if_true]
        exact List.Forall₂.cons ⟨t, ht, rfl⟩ hlines
      · rw [find_definitions_marked tag attributes children attr t hclass hvalue ht,
          find_definitions_loop_eq children ds _ hds, hflat]
        simp
    · refine ⟨lines, ?_, ?_⟩
      · simp only [marked_elements, nodes, List.filter_cons, hm, decide_False]
        exact hlines
      · rw [find_definitions_unmarked tag attributes children
            (not_has_marker_iff tag attributes children hm),
          find_definitions_loop_eq children ds _ hds, hflat]
        simp

/-- C12: for a tree rooted at an Element, `find_definitions` of the root is
the concatenation, over the Elements of the tree that carry the marker taken
in depth-first pre-order, of `extract_text` of the Element followed by a
newline: each of them gives one line, in that order, and nothing else is in
the result. -/
theorem find_definitions_element_lines (tag : GumboTag) (attributes : List GumboAttribute)
    (children : List GumboNode) :
    ∃ lines : List Str,
      List.Forall₂ (fun e line => ∃ t, extract_text e = some t ∧ line = t ++ ['\n'])
        (marked_elements (.element tag attributes children)) lines ∧
      find_definitions (.element tag attributes children) = some lines.flatten :=
  find_definitions_lines (.element tag attributes children)

theorem find_definitions_loop_traced_eq : ∀ (children : List GumboNode) (ds : List Str)
    (res : Str) (visited : List GumboNode),
    List.Forall₂ (fun c d => find_definitions_traced c = some (d, nodes c)) children ds →
    find_definitions_loop_traced children res visited
      = some (res ++ ds.flatten, visited ++ nodes_list children) := by
  intro children ds res visited h
  induction h generalizing res visited with
  | nil => simp [find_definitions_loop_traced, nodes_list]
  | cons hc _ ih =>
    rw [find_definitions_loop_traced, hc]
    simp only
    rw [ih]
    simp [nodes_list]

theorem find_definitions_traced_eq : ∀ n : GumboNode, ∃ d,
    find_definitions n = some d ∧ find_definitions_traced n = some (d, nodes n) := by
  intro n
  induction n using GumboNode.induction_on with
  | htext t => exact ⟨[], by rw [find_definitions], by rw [find_definitions_traced, nodes]⟩
  | hother k => exact ⟨[], by rw [find_definitions], by rw [find_definitions_traced, nodes]⟩
  | helement tag attributes children ih =>
    obtain ⟨ds, hds⟩ := exists_forall₂ _ children ih
    have h1 : List.Forall₂ (fun c d => find_definitions c = some d) children ds :=
      hds.imp (fun _ _ h => h.1)
    have h2 : List.Forall₂ (fun c d => find_definitions_traced c = some (d, nodes c))
        children ds := hds.imp (fun _ _ h => h.2)
    obtain ⟨t, ht⟩ := extract_text_total (.element tag attributes children)
    rw [find_definitions, find_definitions_traced, nodes]
    cases hattr : gumbo_get_attribute attributes "class".toList with
    | none =>
      simp only [find_definitions_loop_eq children ds _ h1,
        find_definitions_loop_traced_eq children ds _ _ h2]
      exact ⟨_, rfl, rfl⟩
    | some attr =>
      cases hstr : strstr attr.value "dtText".toList with
      | none =>
        simp only [hstr, find_definitions_loop_eq children ds _ h1,
          find_definitions_loop_traced_eq children ds _ _ h2]
        exact ⟨_, rfl, rfl⟩
      | some r =>
        simp only [hstr, ht, find_definitions_loop_eq children ds _ h1,
          find_definitions_loop_traced_eq children ds _ _ h2]
        exact ⟨_, rfl, rfl⟩

/-- C13: evaluating `find_definitions` on an Element root invokes
`find_definitions` on the nodes of the tree in depth-first pre-order, each
node once, so the number of invocations is the number of nodes of the tree,
whatever the attributes of the Elements; the string returned is that of
`find_definitions`. -/
theorem find_definitions_visits_each_node (tag : GumboTag) (attributes : List GumboAttribute)
    (children : List GumboNode) :
    ∃ (d : Str) (visited : List GumboNode),
      find_definitions_traced (.element tag attributes children) = some (d, visited) ∧
      find_definitions (.element tag attributes children) = some d ∧
      visited = nodes (.element tag attributes children) ∧
      visited.length = (nodes (.element tag attributes children)).length := by
  obtain ⟨d, hd, ht⟩ := find_definitions_traced_eq (.element tag attributes children)
  exact ⟨d, _, ht, hd, rfl, rfl⟩

theorem str_replace_ref_single (a b : Char) (s : Str) :
    str_replace_ref [a] [b] s = some (substitute a b s, substitute a b s) := by
  have h := str_replace_single a b s
  rw [str_replace] at h
  rw [str_replace_ref, h]

theorem extract_text_loop_st_eq : ∀ (children : List GumboNode) (texts : List Str) (i : Nat)
    (contents : Str),
    List.Forall₂ (fun c t => extract_text_st c = some (t, c)) children texts →
    extract_text_loop_st children i contents
      = some (contents ++ (texts.map (substitute ':' '>')).flatten, children) := by
  intro children texts i contents h
  induction h generalizing i contents with
  | nil => simp [extract_text_loop_st]
  | cons hc _ ih =>
    rw [extract_text_loop_st, hc]
    simp only [str_replace_ref_single, List.append_nil, ite_self]
    rw [ih]
    simp

theorem extract_text_st_eq : ∀ n : GumboNode, ∃ t,
    extract_text n = some t ∧ extract_text_st n = some (t, n) := by
  intro n
  induction n using GumboNode.induction_on with
  | htext t => exact ⟨t, by rw [extract_text], by rw [extract_text_st]⟩
  | hother k => exact ⟨[], by rw [extract_text], by rw [extract_text_st]⟩
  | helement tag attributes children ih =>
    obtain ⟨texts, hts⟩ := exists_forall₂ _ children ih
    have h1 : List.Forall₂ (fun c t => extract_text c = some t) children texts :=
      hts.imp (fun _ _ h => h.1)
    have h2 : List.Forall₂ (fun c t => extract_text_st c = some (t, c)) children texts :=
      hts.imp (fun _ _ h => h.2)
    by_cases h : tag ≠ GumboTag.GUMBO_TAG_SCRIPT ∧ tag ≠ GumboTag.GUMBO_TAG_STYLE
    · refine ⟨_, by rw [extract_text, if_pos h, extract_text_loop_eq children texts 0 [] h1], ?_⟩
      rw [extract_text_st, if_pos h, extract_text_loop_st_eq children texts 0 [] h2]
    · exact ⟨[], by rw [extract_text, if_neg h], by rw [extract_text_st, if_neg h]⟩

theorem find_definitions_loop_st_eq (call : GumboNode → Option (Str × GumboNode)) :
    ∀ (children : List GumboNode) (ds : List Str) (res : Str),
    List.Forall₂ (fun c d => call c = some (d, c)) children ds →
    find_definitions_loop_st call children res = some (res ++ ds.flatten, children) := by
  intro children ds res h
  induction h generalizing res with
  | nil => simp [find_definitions_loop_st]
  | cons hc _ ih =>
    rw [find_definitions_loop_st, hc]
    simp only
    rw [ih]
    simp

theorem height_lt_of_mem : ∀ {children : List GumboNode} {c : GumboNode},
    c ∈ children → height c ≤ height_list children
  | [], _, h => absurd h (List.not_mem_nil _)
  | d :: ds, c, h => by
    rw [height_list]
    rcases List.mem_cons.mp h with e | h1
    · rw [e]; exact le_max_left _ _
    · exact le_trans (height_lt_of_mem h1) (le_max_right _ _)

theorem find_definitions_st_eq : ∀ (n : GumboNode) (fuel : Nat), height n < fuel →
    ∃ d, find_definitions n = some d ∧ find_definitions_st fuel n = some (d, n) := by
  intro n
  induction n using GumboNode.induction_on with
  | htext t =>
    intro fuel hf
    cases fuel with
    | zero => omega
    | succ f => exact ⟨[], by rw [find_definitions], by rw [find_definitions_st]⟩
  | hother k =>
    intro fuel hf
    cases fuel with
    | zero => omega
    | succ f => exact ⟨[], by rw [find_definitions], by rw [find_definitions_st]⟩
  | helement tag attributes children ih =>
    intro fuel hf
    cases fuel with
    | zero => omega
    | succ f =>
      rw [height] at hf
      obtain ⟨ds, hds⟩ := exists_forall₂ _ children
        (fun c hc => ih c hc f (by have := height_lt_of_mem hc; omega))
      have h1 : List.Forall₂ (fun c d => find_definitions c = some d) children ds :=
        hds.imp (fun _ _ h => h.1)
      have h2 : List.Forall₂ (fun c d => find_definitions_st f c = some (d, c)) children ds :=
        hds.imp (fun _ _ h => h.2)
      obtain ⟨t, ht, hst⟩ := extract_text_st_eq (.element tag attributes children)
      rw [find_definitions, find_definitions_st]
      cases hattr : gumbo_get_attribute attributes "class".toList with
      | none =>
        simp only [find_definitions_loop_eq children ds _ h1,
          find_definitions_loop_st_eq _ children ds _ h2]
        exact ⟨_, rfl, rfl⟩
      | some attr =>
        cases hstr : strstr attr.value "dtText".toList with
        | none =>
          simp only [hstr, find_definitions_loop_eq children ds _ h1,
            find_definitions_loop_st_eq _ children ds _ h2]
          exact ⟨_, rfl, rfl⟩
        | some r =>
          simp only [hstr, ht, hst, find_definitions_loop_eq children ds _ h1,
            find_definitions_loop_st_eq _ children ds _ h2]
          exact ⟨_, rfl, rfl⟩

theorem str_replace_loop_count_eq (search replace : Str) :
    ∀ (fuel : Nat) (subject : Str) (pos count : Nat) (r : Str),
      str_replace_loop search replace fuel subject pos = some r →
      ∃ count1, str_replace_loop_count search replace fuel subject pos count
        = some (r, count1) := by
  intro fuel
  induction fuel with
  | zero => intro subject pos count r h; simp [str_replace_loop] at h
  | succ f ih =>
    intro subject pos count r h
    rw [str_replace_loop] at h
    rw [str_replace_loop_count]
    cases hfind : string_find subject search pos with
    | none =>
      rw [hfind] at h
      exact ⟨count, by rw [Option.some.inj h]⟩
    | some p =>
      rw [hfind] at h
      exact ih _ _ _ r h

theorem str_replace_hidden_single (a b : Char) (s : Str) (hidden : Nat) :
    ∃ hidden1, str_replace_hidden [a] [b] s hidden = some (substitute a b s, hidden1) := by
  have h := str_replace_single a b s
  rw [str_replace] at h
  exact str_replace_loop_count_eq [a] [b] _ s 0 _ _ h

theorem extract_text_loop_hidden_eq : ∀ (children : List GumboNode),
    (∀ c ∈ children, ∀ hidden, ∃ t hidden1,
      extract_text c = some t ∧ extract_text_hidden c hidden = some (t, hidden1)) →
    ∀ (i : Nat) (contents : Str) (hidden : Nat), ∃ r hidden1,
      extract_text_loop children i contents = some r ∧
      extract_text_loop_hidden children i contents hidden = some (r, hidden1)
  | [], _ => fun i contents hidden =>
    ⟨contents, hidden, by rw [extract_text_loop], by rw [extract_text_loop_hidden]⟩
  | c :: cs, h => fun i contents hidden => by
    obtain ⟨t, h1, ht, hth⟩ := h c (List.mem_cons_self c cs) hidden
    obtain ⟨h2, hrep⟩ := str_replace_hidden_single ':' '>' t h1
    obtain ⟨r, h3, hr, hrh⟩ := extract_text_loop_hidden_eq cs
      (fun d hd => h d (List.mem_cons_of_mem c hd)) (i + 1)
      ((if i ≠ 0 ∧ ¬ t = [] then contents ++ [] else contents) ++ substitute ':' '>' t) h2
    refine ⟨r, h3, ?_, ?_⟩
    · rw [extract_text_loop, ht]
      simp only [str_replace_single]
      exact hr
    · rw [extract_text_loop_hidden, hth]
      simp only [hrep]
      exact hrh

theorem extract_text_hidden_eq : ∀ (n : GumboNode) (hidden : Nat), ∃ t hidden1,
    extract_text n = some t ∧ extract_text_hidden n hidden = some (t, hidden1) := by
  intro n
  induction n using GumboNode.induction_on with
  | htext t =>
    intro hidden
    exact ⟨t, hidden, by rw [extract_text], by rw [extract_text_hidden]⟩
  | hother k =>
    intro hidden
    exact ⟨[], hidden, by rw [extract_text], by rw [extract_text_hidden]⟩
  | helement tag attributes children ih =>
    intro hidden
    by_cases h : tag ≠ GumboTag.GUMBO_TAG_SCRIPT ∧ tag ≠ GumboTag.GUMBO_TAG_STYLE
    · obtain ⟨r, h1, hr, hrh⟩ := extract_text_loop_hidden_eq children ih 0 [] hidden
      exact ⟨r, h1, by rw [extract_text, if_pos h, hr],
        by rw [extract_text_hidden, if_pos h, hrh]⟩
    · exact ⟨[], hidden, by rw [extract_text, if_neg h],
        by rw [extract_text_hidden, if_neg h]⟩

theorem find_definitions_loop_hidden_eq : ∀ (children : List GumboNode),
    (∀ c ∈ children, ∀ hidden, ∃ d hidden1,
      find_definitions c = some d ∧ find_definitions_hidden c hidden = some (d, hidden1)) →
    ∀ (res : Str) (hidden : Nat), ∃ r hidden1,
      find_definitions_loop children res = some r ∧
      find_definitions_loop_hidden children res hidden = some (r, hidden1)
  | [], _ => fun res hidden =>
    ⟨res, hidden, by rw [find_definitions_loop], by rw [find_definitions_loop_hidden]⟩
  | c :: cs, h => fun res hidden => by
    obtain ⟨d, h1, hd, hdh⟩ := h c (List.mem_cons_self c cs) hidden
    obtain ⟨r, h2, hr, hrh⟩ := find_definitions_loop_hidden_eq cs
      (fun x hx => h x (List.mem_cons_of_mem c hx)) (res ++ d) h1
    refine ⟨r, h2, ?_, ?_⟩
    · rw [find_definitions_loop, hd]
      exact hr
    · rw [find_definitions_loop_hidden, hdh]
      exact hrh

theorem find_definitions_hidden_eq : ∀ (n : GumboNode) (hidden : Nat), ∃ d hidden1,
    find_definitions n = some d ∧ find_definitions_hidden n hidden = some (d, hidden1) := by
  intro n
  induction n using GumboNode.induction_on with
  | htext t =>
    intro hidden
    exact ⟨[], hidden, by rw [find_definitions], by rw [find_definitions_hidden]⟩
  | hother k =>
    intro hidden
    exact ⟨[], hidden, by rw [find_definitions], by rw [find_definitions_hidden]⟩
  | helement tag attributes children ih =>
    intro hidden
    obtain ⟨t, h1, ht, hth⟩ := extract_text_hidden_eq (.element tag attributes children) hidden
    rw [find_definitions, find_definitions_hidden]
    cases hattr : gumbo_get_attribute attributes "class".toList with
    | none =>
      obtain ⟨r, h2, hr, hrh⟩ := find_definitions_loop_hidden_eq children ih [] hidden
      exact ⟨r, h2, by simp only [hr], by simp only [hrh]⟩
    | some attr =>
      cases hstr : strstr attr.value "dtText".toList with
      | none =>
        obtain ⟨r, h2, hr, hrh⟩ := find_definitions_loop_hidden_eq children ih [] hidden
        exact ⟨r, h2, by simp only [hstr, hr], by simp only [hstr, hrh]⟩
      | some s =>
        obtain ⟨r, h2, hr, hrh⟩ :=
          find_definitions_loop_hidden_eq children ih ([] ++ t ++ ['\n']) h1
        exact ⟨r, h2, by simp only [hstr, ht, hr], by simp only [hstr, hth, hrh]⟩

/-- C14: `extract_text` and `find_definitions` are deterministic.  Whatever the
hidden state holds before a call, the call returns the string that the
function gives for the tree; a second call on the same tree, which finds the
hidden state as the first call left it, returns the same string.  The hidden
state does change: extracting `a:b` from a `div` takes it from 7 to 8. -/
theorem calls_deterministic :
    (∀ (node : GumboNode) (hidden : Nat), ∃ (t d : Str) (h1 h2 h3 h4 : Nat),
      extract_text node = some t ∧ find_definitions node = some d ∧
      extract_text_hidden node hidden = some (t, h1) ∧
      extract_text_hidden node h1 = some (t, h2) ∧
      find_definitions_hidden node hidden = some (d, h3) ∧
      find_definitions_hidden node h3 = some (d, h4)) ∧
    (∀ (node : GumboNode) (hidden hidden1 : Nat),
      (extract_text_hidden node hidden).map Prod.fst
        = (extract_text_hidden node hidden1).map Prod.fst ∧
      (find_definitions_hidden node hidden).map Prod.fst
        = (find_definitions_hidden node hidden1).map Prod.fst) ∧
    extract_text_hidden (.element .GUMBO_TAG_DIV [] [.text "a:b".toList]) 7
      = some ("a>b".toList, 8) ∧
    extract_text_hidden (.element .GUMBO_TAG_DIV [] [.text "a:b".toList]) 8
      = some ("a>b".toList, 9) := by
  refine ⟨?_, ?_, by decide, by decide⟩
  · intro node hidden
    obtain ⟨t, h1, ht, hth⟩ := extract_text_hidden_eq node hidden
    obtain ⟨t2, h2, ht2, hth2⟩ := extract_text_hidden_eq node h1
    obtain ⟨d, h3, hd, hdh⟩ := find_definitions_hidden_eq node hidden
    obtain ⟨d2, h4, hd2, hdh2⟩ := find_definitions_hidden_eq node h3
    rw [ht] at ht2
    rw [hd] at hd2
    rw [← Option.some.inj ht2] at hth2
    rw [← Option.some.inj hd2] at hdh2
    exact ⟨t, d, h1, h2, h3, h4, ht, hd, hth, hth2, hdh, hdh2⟩
  · intro node hidden hidden1
    obtain ⟨t, h1, ht, hth⟩ := extract_text_hidden_eq node hidden
    obtain ⟨t2, h2, ht2, hth2⟩ := extract_text_hidden_eq node hidden1
    obtain ⟨d, h3, hd, hdh⟩ := find_definitions_hidden_eq node hidden
    obtain ⟨d2, h4, hd2, hdh2⟩ := find_definitions_hidden_eq node hidden1
    rw [ht] at ht2
    rw [hd] at hd2
    rw [hth, hth2, hdh, hdh2]
    simp only [Option.map_some', Option.some.injEq]
    exact ⟨Option.some.inj ht2, Option.some.inj hd2⟩

/-- C15: `extract_text` and `find_definitions` leave the tree as it was: the
node after the call is the node before it, with its kind, tag, attributes,
children and texts.  The string that `str_replace` changes in place is the
one it is given, the local copy of a child's text: after the call it holds
the text with every `:` replaced by `>`, while the tree still holds the
text. -/
theorem tree_not_mutated (node : GumboNode) (fuel : Nat) (hfuel : height node < fuel) :
    (∃ t, extract_text_st node = some (t, node)) ∧
    (∃ d, find_definitions_st fuel node = some (d, node)) ∧
    (∀ text : Str, str_replace_ref [':'] ['>'] text
      = some (substitute ':' '>' text, substitute ':' '>' text)) ∧
    (∀ (tag : GumboTag) (attributes : List GumboAttribute) (text : Str),
      tag ≠ GumboTag.GUMBO_TAG_SCRIPT → tag ≠ GumboTag.GUMBO_TAG_STYLE →
      extract_text_st (.element tag attributes [.text text])
        = some (substitute ':' '>' text, .element tag attributes [.text text])) := by
  obtain ⟨t, _, hst⟩ := extract_text_st_eq node
  obtain ⟨d, _, hdst⟩ := find_definitions_st_eq node fuel hfuel
  refine ⟨⟨t, hst⟩, ⟨d, hdst⟩, fun text => str_replace_ref_single ':' '>' text, ?_⟩
  intro tag attributes text hscript hstyle
  rw [extract_text_st, if_pos ⟨hscript, hstyle⟩,
    extract_text_loop_st_eq [.text text] [text] 0 []
      (List.Forall₂.cons (by rw [extract_text_st]) List.Forall₂.nil)]
  simp

/-- Witness of C15: a `div` of class `dtText` around the text `a:b`, which is
still `a:b` after the calls. -/
theorem tree_not_mutated_witness :
    extract_text_st (.element .GUMBO_TAG_DIV [⟨"class".toList, "dtText".toList⟩]
        [.text "a:b".toList])
      = some ("a>b".toList, .element .GUMBO_TAG_DIV [⟨"class".toList, "dtText".toList⟩]
        [.text "a:b".toList]) ∧
    ∃ d, find_definitions_st 2 (.element .GUMBO_TAG_DIV [⟨"class".toList, "dtText".toList⟩]
        [.text "a:b".toList])
      = some (d, .element .GUMBO_TAG_DIV [⟨"class".toList, "dtText".toList⟩]
        [.text "a:b".toList]) :=
  ⟨((tree_not_mutated (.element .GUMBO_TAG_DIV [⟨"class".toList, "dtText".toList⟩]
      [.text "a:b".toList]) 2 (by decide)).2.2.2 .GUMBO_TAG_DIV
      [⟨"class".toList, "dtText".toList⟩] "a:b".toList (by decide) (by decide)).trans rfl,
   (tree_not_mutated (.element .GUMBO_TAG_DIV [⟨"class".toList, "dtText".toList⟩]
      [.text "a:b".toList]) 2 (by decide)).2.1⟩

theorem deliver_eq : ∀ (chunks : List Str) (response : Str),
    deliver chunks response = response ++ chunks.flatten
  | [], response => by simp [deliver]
  | c :: cs, response => by
    rw [deliver, WriteCallback, deliver_eq cs]
    simp

theorem main_fetch_response (env : Env) (status : Nat) (content_type : Option Str)
    (chunks : List Str) (hhandle : env.handle = true)
    (htransfer : env.transfer = .response status content_type chunks) :
    (main_fetch env).res = CURLE_OK ∧ (main_fetch env).response = chunks.flatten ∧
    (main_fetch env).stderr = [] ∧
    curl_easy_getinfo_content_type (main_fetch env).curl env.transfer = content_type := by
  simp [main_fetch, hhandle, htransfer, curl_easy_setopt, curl_easy_init, curl_easy_perform,
    curl_easy_getinfo_content_type, deliver_eq]

/-- C16: when `curl_easy_perform` returns a result other than `CURLE_OK`,
`main` writes an error message to standard error, writes nothing to standard
output, does not call `scrape`, and ends with status `EXIT_FAILURE`. -/
theorem main_fetch_failure (env : Env) (hfail : (main_fetch env).res ≠ CURLE_OK) :
    ∃ o : Outcome, main env = some o ∧
      o.stdout = [] ∧
      o.stderr = (main_fetch env).stderr ++ "Error sending HTTP request: ".toList
        ++ env.curl_easy_strerror (main_fetch env).res ++ ['\n'] ∧
      o.stderr ≠ [] ∧
      o.scraped = [] ∧
      o.status = EXIT_FAILURE := by
  refine ⟨_, by rw [main]; exact if_pos hfail, rfl, rfl, ?_, rfl, rfl⟩
  simp

/-- Witness of C16: the host name cannot be resolved (result code 6). -/
theorem main_fetch_failure_witness :
    ∃ o : Outcome,
      main ⟨true, .failure 6 [], fun _ => "Could not resolve hostname".toList,
        fun _ => .other .GUMBO_NODE_DOCUMENT⟩ = some o ∧
      o.stdout = [] ∧
      o.stderr = (main_fetch ⟨true, .failure 6 [],
          fun _ => "Could not resolve hostname".toList,
          fun _ => .other .GUMBO_NODE_DOCUMENT⟩).stderr
        ++ "Error sending HTTP request: ".toList
        ++ "Could not resolve hostname".toList ++ ['\n'] ∧
      o.stderr ≠ [] ∧
      o.scraped = [] ∧
      o.status = EXIT_FAILURE :=
  main_fetch_failure ⟨true, .failure 6 [], fun _ => "Could not resolve hostname".toList,
    fun _ => .other .GUMBO_NODE_DOCUMENT⟩ (by decide)

theorem main_success (env : Env) (b c : Str)
    (hres : (main_fetch env).res = CURLE_OK)
    (hbody : (main_fetch env).response = b)
    (htype : curl_easy_getinfo_content_type (main_fetch env).curl env.transfer = some c) :
    ∃ (d : Str) (o : Outcome),
      find_definitions (env.gumbo_parse b) = some d ∧
      scrape env.gumbo_parse b = some d ∧
      main env = some o ∧
      o.stdout = "aaa: ".toList ++ c ++ ['\n'] ++ b ++ ['\n'] ++ d ++ ['\n'] ∧
      o.stderr = (main_fetch env).stderr ∧
      o.scraped = [b] ∧
      o.status = 0 := by
  obtain ⟨d, hd⟩ := find_definitions_total (env.gumbo_parse b)
  have hs : scrape env.gumbo_parse b = some d := by
    rw [scrape, hd]
    rfl
  refine ⟨d, ⟨"aaa: ".toList ++ c ++ ['\n'] ++ b ++ ['\n'] ++ d ++ ['\n'],
    (main_fetch env).stderr, 0, [b]⟩, hd, hs, ?_, rfl, rfl, rfl, rfl⟩
  rw [main]
  simp only [hres, ne_eq, not_true_eq_false, if_false, htype, hbody, hs]

/-- C18: when the fetch succeeds with body `b` and content type `c`, the
standard output of `main` is `aaa: ` and `c` on a line, then `b` and a
newline, then `scrape( b )`, which is `find_definitions` of the root the
parser builds from `b`, and a newline; the exit status is 0. -/
theorem main_fetch_success (env : Env) (b c : Str)
    (hres : (main_fetch env).res = CURLE_OK)
    (hbody : (main_fetch env).response = b)
    (htype : curl_easy_getinfo_content_type (main_fetch env).curl env.transfer = some c) :
    ∃ (d : Str) (o : Outcome),
      find_definitions (env.gumbo_parse b) = some d ∧
      scrape env.gumbo_parse b = some d ∧
      main env = some o ∧
      o.stdout = "aaa: ".toList ++ c ++ ['\n'] ++ b ++ ['\n'] ++ d ++ ['\n'] ∧
      o.status = 0 := by
  obtain ⟨d, o, h1, h2, h3, h4, _, _, h5⟩ := main_success env b c hres hbody htype
  exact ⟨d, o, h1, h2, h3, h4, h5⟩

/-- Witness of C18: a response of status 200 whose body arrives in two chunks
and is parsed to a `div` of class `dtText` around the text `a:b`. -/
theorem main_fetch_success_witness :
    ∃ (d : Str) (o : Outcome),
      find_definitions ((fun _ => GumboNode.element .GUMBO_TAG_DIV
        [⟨"class".toList, "dtText".toList⟩] [.text "a:b".toList]) "<div class=dtText>a:b</div>".toList)
        = some d ∧
      scrape (fun _ => GumboNode.element .GUMBO_TAG_DIV
        [⟨"class".toList, "dtText".toList⟩] [.text "a:b".toList])
        "<div class=dtText>a:b</div>".toList = some d ∧
      main ⟨true, .response 200 (some "text/html".toList)
          ["<div class=dtText>".toList, "a:b</div>".toList], fun _ => [],
          fun _ => .element .GUMBO_TAG_DIV [⟨"class".toList, "dtText".toList⟩]
            [.text "a:b".toList]⟩ = some o ∧
      o.stdout = "aaa: ".toList ++ "text/html".toList ++ ['\n']
        ++ "<div class=dtText>a:b</div>".toList ++ ['\n'] ++ d ++ ['\n'] ∧
      o.status = 0 :=
  main_fetch_success ⟨true, .response 200 (some "text/html".toList)
      ["<div class=dtText>".toList, "a:b</div>".toList], fun _ => [],
      fun _ => .element .GUMBO_TAG_DIV [⟨"class".toList, "dtText".toList⟩]
        [.text "a:b".toList]⟩
    "<div class=dtText>a:b</div>".toList "text/html".toList (by decide) (by decide) (by decide)

/-- C17, as amended: a complete response is not turned into a fetch error by
its HTTP status.  With a handle and a response that has a content type `c`,
whatever the status, `main` writes nothing to standard error, prints `c`, the
body and the result of `scrape`, and ends with status 0. -/
theorem main_status_not_checked (env : Env) (status : Nat) (c : Str) (chunks : List Str)
    (hhandle : env.handle = true)
    (htransfer : env.transfer = .response status (some c) chunks) :
    ∃ (d : Str) (o : Outcome),
      scrape env.gumbo_parse chunks.flatten = some d ∧
      main env = some o ∧
      o.stdout = "aaa: ".toList ++ c ++ ['\n'] ++ chunks.flatten ++ ['\n'] ++ d ++ ['\n'] ∧
      o.stderr = [] ∧
      o.scraped = [chunks.flatten] ∧
      o.status = 0 := by
  obtain ⟨h1, h2, h3, h4⟩ := main_fetch_response env status (some c) chunks hhandle htransfer
  obtain ⟨d, o, _, hs, hm, hout, herr, hscr, hst⟩ := main_success env chunks.flatten c h1 h2 h4
  exact ⟨d, o, hs, hm, hout, by rw [herr, h3], hscr, hst⟩

/-- Witness of C17 as amended: a response of status 500. -/
theorem main_status_not_checked_witness :
    ∃ (d : Str) (o : Outcome),
      scrape (fun _ => GumboNode.other .GUMBO_NODE_DOCUMENT)
        ["Internal ".toList, "Server Error".toList].flatten = some d ∧
      main ⟨true, .response 500 (some "text/plain".toList)
          ["Internal ".toList, "Server Error".toList], fun _ => [],
          fun _ => .other .GUMBO_NODE_DOCUMENT⟩ = some o ∧
      o.stdout = "aaa: ".toList ++ "text/plain".toList ++ ['\n']
        ++ ["Internal ".toList, "Server Error".toList].flatten ++ ['\n'] ++ d ++ ['\n'] ∧
      o.stderr = [] ∧
      o.scraped = [["Internal ".toList, "Server Error".toList].flatten] ∧
      o.status = 0 :=
  main_status_not_checked ⟨true, .response 500 (some "text/plain".toList)
      ["Internal ".toList, "Server Error".toList], fun _ => [],
      fun _ => .other .GUMBO_NODE_DOCUMENT⟩
    500 "text/plain".toList ["Internal ".toList, "Server Error".toList] rfl rfl

/-- Counterexample to C17 as stated: for a response of status 404 with the
body `Not Found`, `main` reports no error: it prints the content type, the
body and the empty result of `scrape`, and ends with status 0, not with
`EXIT_FAILURE`. -/
theorem main_status_not_checked_counterexample :
    main ⟨true, .response 404 (some "text/html".toList) ["Not Found".toList],
        fun _ => "error".toList, fun _ => .element .GUMBO_TAG_DIV [] []⟩
      = some ⟨"aaa: text/html\nNot Found\n\n".toList, [], 0, ["Not Found".toList]⟩ ∧
    (0 : Nat) ≠ EXIT_FAILURE := by
  constructor <;> decide

theorem substitute_length (a b : Char) (s : Str) : (substitute a b s).length = s.length := by
  simp [substitute]

theorem substitute_getElem? (a b : Char) (s : Str) (i : Nat) :
    (substitute a b s)[i]? = (s[i]?).map (fun c => if c = a then b else c) := by
  simp [substitute]

theorem not_mem_substitute (a b : Char) (hab : b ≠ a) (s : Str) : a ∉ substitute a b s := by
  intro h
  simp only [substitute, List.mem_map] at h
  obtain ⟨c, _, hc⟩ := h
  by_cases e : c = a
  · rw [if_pos e] at hc
    exact hab hc
  · rw [if_neg e] at hc
    exact e hc

/-- C23: for every string `s`, `str_replace( ":", ">", s )` returns a string
of the length of `s` that holds `>` where `s` holds `:` and the character of
`s` everywhere else, and leaves `s`, its argument by reference, equal to the
returned string. -/
theorem str_replace_colon (s : Str) :
    ∃ r : Str,
      str_replace [':'] ['>'] s = some r ∧
      str_replace_ref [':'] ['>'] s = some (r, r) ∧
      r.length = s.length ∧
      ∀ (i : Nat) (c : Char), s[i]? = some c →
        (c = ':' → r[i]? = some '>') ∧ (c ≠ ':' → r[i]? = some c) := by
  refine ⟨substitute ':' '>' s, str_replace_single ':' '>' s, str_replace_ref_single ':' '>' s,
    substitute_length ':' '>' s, ?_⟩
  intro i c hc
  rw [substitute_getElem?, hc]
  constructor
  · intro e; simp [e]
  · intro e; simp [e]

theorem extract_text_element_no_colon (tag : GumboTag) (attributes : List GumboAttribute)
    (children : List GumboNode) :
    ∃ t, extract_text (.element tag attributes children) = some t ∧ ':' ∉ t := by
  by_cases h : tag ≠ GumboTag.GUMBO_TAG_SCRIPT ∧ tag ≠ GumboTag.GUMBO_TAG_STYLE
  · obtain ⟨texts, hts⟩ := exists_forall₂ _ children (fun c _ => extract_text_total c)
    refine ⟨_, by rw [extract_text, if_pos h, extract_text_loop_eq children texts 0 [] hts], ?_⟩
    intro hmem
    simp only [List.nil_append, List.mem_flatten, List.mem_map] at hmem
    obtain ⟨l, ⟨x, _, hx⟩, hl⟩ := hmem
    rw [← hx] at hl
    exact not_mem_substitute ':' '>' (by decide) x hl
  · exact ⟨[], by rw [extract_text, if_neg h], by simp⟩

theorem marked_elements_has_marker {root e : GumboNode} (h : e ∈ marked_elements root) :
    has_marker e := by
  simp only [marked_elements, List.mem_filter, decide_eq_true_eq] at h
  exact h.2

theorem has_marker_element {e : GumboNode} (h : has_marker e) :
    ∃ tag attributes children, e = .element tag attributes children := by
  cases e with
  | text t => exact absurd h (fun h => h)
  | other k => exact absurd h (fun h => h)
  | element tag attributes children => exact ⟨tag, attributes, children, rfl⟩

theorem lines_no_colon : ∀ {es : List GumboNode} {lines : List Str},
    List.Forall₂ (fun e line => ∃ t, extract_text e = some t ∧ line = t ++ ['\n']) es lines →
    (∀ e ∈ es, has_marker e) → ':' ∉ lines.flatten := by
  intro es lines h
  induction h with
  | nil => intro _; simp
  | @cons e line es1 lines1 hc _ ih =>
    intro hm
    obtain ⟨t, ht, hline⟩ := hc
    obtain ⟨tag, attributes, children, he⟩ := has_marker_element (hm e (List.mem_cons_self _ _))
    obtain ⟨t1, ht1, hno⟩ := extract_text_element_no_colon tag attributes children
    rw [he, ht1] at ht
    have e1 : t1 = t := Option.some.inj ht
    rw [List.flatten_cons, List.mem_append, hline, ← e1]
    rintro (h1 | h2)
    · rw [List.mem_append] at h1
      rcases h1 with h1 | h1
      · exact hno h1
      · simp at h1
    · exact ih (fun x hx => hm x (List.mem_cons_of_mem _ hx)) h2

/-- C24: `extract_text` of an Element has no `:` in it, and so the result of
`find_definitions` has none for any tree, while `extract_text` of a Text node
returns the text with its colons. -/
theorem no_colon_in_output :
    (∀ (tag : GumboTag) (attributes : List GumboAttribute) (children : List GumboNode),
      ∃ t, extract_text (.element tag attributes children) = some t ∧ ':' ∉ t) ∧
    (∀ root : GumboNode, ∃ d, find_definitions root = some d ∧ ':' ∉ d) ∧
    (∀ text : Str, extract_text (.text text) = some text) ∧
    extract_text (.text "a:b".toList) = some "a:b".toList ∧ ':' ∈ "a:b".toList := by
  refine ⟨extract_text_element_no_colon, ?_, fun text => by rw [extract_text],
    by rw [extract_text], by decide⟩
  intro root
  obtain ⟨lines, hlines, hd⟩ := find_definitions_lines root
  exact ⟨_, hd, lines_no_colon hlines (fun e he => marked_elements_has_marker he)⟩

theorem lines_getLast? : ∀ {es : List GumboNode} {lines : List Str},
    List.Forall₂ (fun e line => ∃ t, extract_text e = some t ∧ line = t ++ ['\n']) es lines →
    lines.flatten = [] ∨ lines.flatten.getLast? = some '\n' := by
  intro es lines h
  induction h with
  | nil => left; rfl
  | cons hc _ ih =>
    obtain ⟨t, _, hline⟩ := hc
    right
    rw [List.flatten_cons, hline]
    rcases ih with h0 | h1
    · rw [h0, List.append_nil, List.getLast?_append]
      simp
    · rw [List.getLast?_append, h1]
      simp

/-- C25: for every tree, the string that `find_definitions` returns is empty
or ends with a newline. -/
theorem find_definitions_ends_with_newline (root : GumboNode) :
    ∃ d, find_definitions root = some d ∧ (d = [] ∨ d.getLast? = some '\n') := by
  obtain ⟨lines, hlines, hd⟩ := find_definitions_lines root
  exact ⟨_, hd, lines_getLast? hlines⟩

theorem lines_count : ∀ {es : List GumboNode} {lines : List Str},
    List.Forall₂ (fun e line => ∃ t, extract_text e = some t ∧ line = t ++ ['\n']) es lines →
    es.length ≤ lines.flatten.count '\n' ∧ (lines.flatten = [] ↔ es = []) := by
  intro es lines h
  induction h with
  | nil => simp
  | cons hc _ ih =>
    obtain ⟨t, _, hline⟩ := hc
    rw [List.flatten_cons, hline]
    constructor
    · simp only [List.length_cons, List.count_append, List.count_singleton_self]
      have := ih.1
      omega
    · simp

/-- C26: for a tree rooted at an Element, the result of `find_definitions` has
at least as many newlines as the tree has Elements that carry the marker, and
it is empty if and only if no Element carries the marker. -/
theorem find_definitions_newlines (tag : GumboTag) (attributes : List GumboAttribute)
    (children : List GumboNode) :
    ∃ d, find_definitions (.element tag attributes children) = some d ∧
      (marked_elements (.element tag attributes children)).length ≤ d.count '\n' ∧
      (d = [] ↔ marked_elements (.element tag attributes children) = []) := by
  obtain ⟨lines, hlines, hd⟩ := find_definitions_lines (.element tag attributes children)
  exact ⟨_, hd, lines_count hlines⟩

/-- Witness of C23: the string `a:b::`. -/
theorem str_replace_colon_witness :
    ∃ r : Str,
      str_replace [':'] ['>'] "a:b::".toList = some r ∧
      str_replace_ref [':'] ['>'] "a:b::".toList = some (r, r) ∧
      r.length = "a:b::".toList.length ∧
      ∀ (i : Nat) (c : Char), "a:b::".toList[i]? = some c →
        (c = ':' → r[i]? = some '>') ∧ (c ≠ ':' → r[i]? = some c) :=
  str_replace_colon "a:b::".toList

/-- C27: `find_definitions` does not skip script and style Elements.  For a
script or style Element, every child is visited and its result appended in
document order; when the Element carries the marker, what it contributes
itself is a line made of a newline alone, and nothing otherwise. -/
theorem find_definitions_script_style (tag : GumboTag) (attributes : List GumboAttribute)
    (children : List GumboNode)
    (htag : tag = GumboTag.GUMBO_TAG_SCRIPT ∨ tag = GumboTag.GUMBO_TAG_STYLE) :
    ∃ ds : List Str,
      List.Forall₂ (fun child d => find_definitions child = some d) children ds ∧
      extract_text (.element tag attributes children) = some [] ∧
      (has_marker (.element tag attributes children) →
        find_definitions (.element tag attributes children) = some (['\n'] ++ ds.flatten)) ∧
      (¬ has_marker (.element tag attributes children) →
        find_definitions (.element tag attributes children) = some ds.flatten) := by
  obtain ⟨ds, hds⟩ := exists_forall₂ _ children (fun c _ => find_definitions_total c)
  have hguard : ¬ (tag ≠ GumboTag.GUMBO_TAG_SCRIPT ∧ tag ≠ GumboTag.GUMBO_TAG_STYLE) := by
    rintro ⟨h1, h2⟩
    rcases htag with e | e
    · exact h1 e
    · exact h2 e
  have ht : extract_text (.element tag attributes children) = some [] := by
    rw [extract_text, if_neg hguard]
  refine ⟨ds, hds, ht, ?_, ?_⟩
  · rintro ⟨attr, hclass, hvalue⟩
    rw [find_definitions_marked tag attributes children attr [] hclass hvalue ht,
      find_definitions_loop_eq children ds _ hds]
    rfl
  · intro hm
    rw [find_definitions_unmarked tag attributes children
        (not_has_marker_iff tag attributes children hm),
      find_definitions_loop_eq children ds _ hds, List.nil_append]

/-- Witness of C27: a `script` of class `dtText` around a `div` of class
`dtText` with the text `a:b`: a line with a newline alone for the `script`,
then the line of the `div`. -/
theorem find_definitions_script_style_witness :
    (∃ ds : List Str,
      List.Forall₂ (fun child d => find_definitions child = some d)
        [.element .GUMBO_TAG_DIV [⟨"class".toList, "dtText".toList⟩] [.text "a:b".toList]] ds ∧
      extract_text (.element .GUMBO_TAG_SCRIPT [⟨"class".toList, "dtText".toList⟩]
        [.element .GUMBO_TAG_DIV [⟨"class".toList, "dtText".toList⟩] [.text "a:b".toList]])
        = some [] ∧
      (has_marker (.element .GUMBO_TAG_SCRIPT [⟨"class".toList, "dtText".toList⟩]
          [.element .GUMBO_TAG_DIV [⟨"class".toList, "dtText".toList⟩] [.text "a:b".toList]]) →
        find_definitions (.element .GUMBO_TAG_SCRIPT [⟨"class".toList, "dtText".toList⟩]
          [.element .GUMBO_TAG_DIV [⟨"class".toList, "dtText".toList⟩] [.text "a:b".toList]])
          = some (['\n'] ++ ds.flatten)) ∧
      (¬ has_marker (.element .GUMBO_TAG_SCRIPT [⟨"class".toList, "dtText".toList⟩]
          [.element .GUMBO_TAG_DIV [⟨"class".toList, "dtText".toList⟩] [.text "a:b".toList]]) →
        find_definitions (.element .GUMBO_TAG_SCRIPT [⟨"class".toList, "dtText".toList⟩]
          [.element .GUMBO_TAG_DIV [⟨"class".toList, "dtText".toList⟩] [.text "a:b".toList]])
          = some ds.flatten)) ∧
    find_definitions (.element .GUMBO_TAG_SCRIPT [⟨"class".toList, "dtText".toList⟩]
      [.element .GUMBO_TAG_DIV [⟨"class".toList, "dtText".toList⟩] [.text "a:b".toList]])
      = some "\na>b\n".toList :=
  ⟨find_definitions_script_style .GUMBO_TAG_SCRIPT [⟨"class".toList, "dtText".toList⟩]
    [.element .GUMBO_TAG_DIV [⟨"class".toList, "dtText".toList⟩] [.text "a:b".toList]]
    (Or.inl rfl), by decide⟩

theorem string_find_empty (subject : Str) (pos : Nat) (hpos : pos ≤ subject.length) :
    string_find subject [] pos = some pos := by
  have hlt : ¬ subject.length < pos := by omega
  rw [string_find, if_neg hlt]
  cases List.drop pos subject with
  | nil => simp [find_from, List.isPrefixOf]
  | cons c cs => simp [find_from, List.isPrefixOf]

theorem str_replace_loop_empty (replace : Str) : ∀ (fuel : Nat) (subject : Str) (pos : Nat),
    pos ≤ subject.length → str_replace_loop [] replace fuel subject pos = none := by
  intro fuel
  induction fuel with
  | zero => intro subject pos _; rw [str_replace_loop]
  | succ f ih =>
    intro subject pos hpos
    rw [str_replace_loop, string_find_empty subject pos hpos]
    apply ih
    simp only [string_replace, List.length_append, List.length_take, List.length_drop,
      List.length_nil]
    omega

theorem string_replace_progress (search replace subject : Str) (pos p : Nat)
    (hsearch : search ≠ []) (hfind : string_find subject search pos = some p) :
    pos ≤ p ∧
    (string_replace subject p search.length replace).take (p + replace.length)
      = subject.take p ++ replace ∧
    (string_replace subject p search.length replace).length - (p + replace.length)
      < subject.length - pos := by
  have hlen : 0 < search.length := List.length_pos.mpr hsearch
  have hp := string_find_some subject search pos p hfind
  refine ⟨hp.1, ?_, ?_⟩
  · have hl : (subject.take p ++ replace).length = p + replace.length := by
      simp only [List.length_append, List.length_take]
      omega
    rw [string_replace, ← hl, List.take_left]
  · simp only [string_replace, List.length_append, List.length_take, List.length_drop]
    omega

theorem str_replace_loop_step (search replace subject : Str) (fuel pos : Nat) :
    str_replace_loop search replace (fuel + 1) subject pos
      = (match str_replace_step search replace subject pos with
        | none => some subject
        | some (subject1, pos1) => str_replace_loop search replace fuel subject1 pos1) := by
  rw [str_replace_loop, str_replace_step]
  cases string_find subject search pos <;> rfl

theorem str_replace_step_empty (replace subject : Str) (pos : Nat)
    (hpos : pos ≤ subject.length) :
    str_replace_step [] replace subject pos
      = some (subject.take pos ++ replace ++ subject.drop pos, pos + replace.length) := by
  rw [str_replace_step, string_find_empty subject pos hpos]
  simp [string_replace]

theorem str_replace_iterate_empty (replace : Str) : ∀ (n : Nat) (subject : Str) (pos : Nat),
    pos ≤ subject.length →
    ∃ subject1, str_replace_iterate [] replace n subject pos
        = some (subject1, pos + n * replace.length) ∧
      subject1.length = subject.length + n * replace.length := by
  intro n
  induction n with
  | zero => intro subject pos _; exact ⟨subject, by simp [str_replace_iterate], by simp⟩
  | succ k ih =>
    intro subject pos hpos
    rw [str_replace_iterate, str_replace_step_empty replace subject pos hpos]
    simp only
    have hlen : (subject.take pos ++ replace ++ subject.drop pos).length
        = subject.length + replace.length := by
      simp only [List.length_append, List.length_take, List.length_drop]
      omega
    obtain ⟨s1, hs1, hl1⟩ := ih (subject.take pos ++ replace ++ subject.drop pos)
      (pos + replace.length) (by rw [hlen]; omega)
    refine ⟨s1, ?_, ?_⟩
    · rw [hs1, Nat.add_mul, Nat.one_mul]
      congr 2
      omega
    · rw [hl1, hlen, Nat.add_mul, Nat.one_mul]
      omega

theorem str_replace_iterate_empty_empty : ∀ (n : Nat) (subject : Str),
    str_replace_iterate [] [] n subject 0 = some (subject, 0)
  | 0, subject => by rw [str_replace_iterate]
  | n + 1, subject => by
    rw [str_replace_iterate, str_replace_step_empty [] subject 0 (Nat.zero_le _)]
    simp only [List.take_zero, List.drop_zero, List.nil_append, List.length_nil, Nat.add_zero]
    exact str_replace_iterate_empty_empty n subject

/-- C29, as amended: with a non-empty search string the loop of `str_replace`
ends, for every replace and subject string: each iteration puts the position
at the end of the replacement it has inserted, which is not scanned again, and
the part of the subject that is still to be scanned becomes shorter.  With an
empty search string the loop does not end, whatever the number of iterations
allowed: `find` succeeds at the position itself, a match of length zero past
which the position does not advance; an iteration inserts the replacement
there and moves the position by the length of the replacement, so the
position stays within the subject; the subject grows only by the length of
the replacement, and with an empty replacement neither the subject nor the
position changes. -/
theorem str_replace_termination :
    (∀ search replace subject : Str, search ≠ [] →
      ∃ r, str_replace search replace subject = some r ∧
        ∀ fuel, subject.length < fuel →
          str_replace_loop search replace fuel subject 0 = some r) ∧
    (∀ (search replace subject : Str) (pos p : Nat), search ≠ [] →
      string_find subject search pos = some p →
      pos ≤ p ∧
      (string_replace subject p search.length replace).take (p + replace.length)
        = subject.take p ++ replace ∧
      (string_replace subject p search.length replace).length - (p + replace.length)
        < subject.length - pos) ∧
    (∀ (subject : Str) (pos : Nat), pos ≤ subject.length →
      string_find subject [] pos = some pos) ∧
    (∀ (replace subject : Str) (pos : Nat), pos ≤ subject.length →
      str_replace_step [] replace subject pos
        = some (subject.take pos ++ replace ++ subject.drop pos, pos + replace.length) ∧
      pos + replace.length ≤ (subject.take pos ++ replace ++ subject.drop pos).length) ∧
    (∀ (replace subject : Str) (n : Nat),
      ∃ subject1, str_replace_iterate [] replace n subject 0
          = some (subject1, n * replace.length) ∧
        subject1.length = subject.length + n * replace.length) ∧
    (∀ (subject : Str) (n : Nat), str_replace_iterate [] [] n subject 0 = some (subject, 0)) ∧
    (∀ (replace subject : Str) (fuel : Nat),
      str_replace_loop [] replace fuel subject 0 = none) := by
  refine ⟨?_, ?_, string_find_empty, ?_, ?_, ?_, ?_⟩
  · intro search replace subject hsearch
    obtain ⟨r, hr⟩ := str_replace_loop_fuel search replace hsearch (subject.length + 1)
      subject 0 (by omega)
    refine ⟨r, hr, ?_⟩
    intro fuel hfuel
    have hmono := str_replace_loop_mono search replace (subject.length + 1)
      (fuel - (subject.length + 1)) subject 0 r hr
    have e : subject.length + 1 + (fuel - (subject.length + 1)) = fuel := by omega
    rw [e] at hmono
    exact hmono
  · intro search replace subject pos p hsearch hfind
    exact string_replace_progress search replace subject pos p hsearch hfind
  · intro replace subject pos hpos
    refine ⟨str_replace_step_empty replace subject pos hpos, ?_⟩
    simp only [List.length_append, List.length_take, List.length_drop]
    omega
  · intro replace subject n
    obtain ⟨s1, hs1, hl1⟩ := str_replace_iterate_empty replace n subject 0 (Nat.zero_le _)
    rw [Nat.zero_add] at hs1
    exact ⟨s1, hs1, hl1⟩
  · intro subject n
    exact str_replace_iterate_empty_empty n subject
  · intro replace subject fuel
    exact str_replace_loop_empty replace fuel subject 0 (Nat.zero_le _)

/-- Witness of C29 as amended: `ab` replaced by `abab` in `xabyab`, where the
replacement holds the search string again, gives `xababyabab`; with the empty
search string and the replacement `-`, three iterations have put three `-` in
front and the position at 3, and a thousand iterations do not end the loop. -/
theorem str_replace_termination_witness :
    (∃ r, str_replace "ab".toList "abab".toList "xabyab".toList = some r ∧
      ∀ fuel, "xabyab".toList.length < fuel →
        str_replace_loop "ab".toList "abab".toList fuel "xabyab".toList 0 = some r) ∧
    str_replace "ab".toList "abab".toList "xabyab".toList = some "xababyabab".toList ∧
    str_replace_iterate [] "-".toList 3 "xabyab".toList 0 = some ("---xabyab".toList, 3) ∧
    str_replace_loop [] "-".toList 1000 "xabyab".toList 0 = none :=
  ⟨str_replace_termination.1 "ab".toList "abab".toList "xabyab".toList (by decide),
    by decide, by decide,
    str_replace_termination.2.2.2.2.2.2 "-".toList "xabyab".toList 1000⟩

/-- Counterexample to C29 as stated: with an empty search string and an empty
replacement the subject does not grow and `find` succeeds at position 0 only:
after five iterations of the loop on `xabyab` the subject is still `xabyab`
and the position still 0, and a thousand iterations do not end the loop. -/
theorem str_replace_termination_counterexample :
    str_replace_iterate [] [] 5 "xabyab".toList 0 = some ("xabyab".toList, 0) ∧
    str_replace_step [] [] "xabyab".toList 0 = some ("xabyab".toList, 0) ∧
    str_replace_loop [] [] 1000 "xabyab".toList 0 = none := by
  refine ⟨by decide, by decide, ?_⟩
  exact str_replace_loop_empty [] 1000 "xabyab".toList 0 (Nat.zero_le _)

end Scraper

namespace StringViews

theorem scan_digits_eq : ∀ (cs : Str) (value count : Nat),
    scan_digits cs value count
      = ((cs.takeWhile Char.isDigit).foldl (fun n c => n * 10 + (c.toNat - 48)) value,
         count + (cs.takeWhile Char.isDigit).length)
  | [], value, count => by simp [scan_digits]
  | c :: cs, value, count => by
    by_cases h : c.isDigit = true
    · rw [scan_digits, if_pos h, scan_digits_eq cs, List.takeWhile_cons, if_pos h]
      simp only [List.foldl_cons, List.length_cons]
      have : '0'.toNat = 48 := by decide
      rw [this, Nat.add_assoc, Nat.add_comm 1]
    · rw [scan_digits, if_neg h, List.takeWhile_cons, if_neg h]
      simp

theorem from_chars_eq (s : Str) :
    from_chars s = (match leading_number s with
      | none => (⟨0, errc.invalid_argument⟩, none)
      | some v =>
        if v < INT_MIN ∨ INT_MAX < v then
          (⟨(if s.head? = some '-' then 1 else 0)
            + ((if s.head? = some '-' then s.tail else s).takeWhile Char.isDigit).length,
            errc.result_out_of_range⟩, none)
        else
          (⟨(if s.head? = some '-' then 1 else 0)
            + ((if s.head? = some '-' then s.tail else s).takeWhile Char.isDigit).length,
            errc.ok⟩, some v)) := by
  unfold from_chars leading_number
  simp only [scan_digits_eq, Nat.zero_add, decide_eq_true_eq]
  generalize hrest : (if s.head? = some '-' then s.tail else s) = rest
  generalize hdig : List.takeWhile Char.isDigit rest = digits
  cases digits with
  | nil => simp
  | cons d ds =>
    by_cases hneg : s.head? = some '-'
    · simp [hneg]
    · simp [hneg]

theorem asInt_eq (s : Str) :
    asInt s = (match leading_number s with
      | none => none
      | some v => if INT_MIN ≤ v ∧ v ≤ INT_MAX then some v else none) := by
  unfold asInt
  rw [from_chars_eq]
  cases leading_number s with
  | none => simp
  | some v =>
    by_cases h : v < INT_MIN ∨ INT_MAX < v
    · have h2 : ¬ (INT_MIN ≤ v ∧ v ≤ INT_MAX) := by omega
      simp [h, h2]
    · have h2 : INT_MIN ≤ v ∧ v ≤ INT_MAX := by omega
      simp [h, h2]

theorem asInt_none_iff (s : Str) : asInt s = none ↔ (from_chars s).1.ec ≠ errc.ok := by
  unfold asInt
  rw [from_chars_eq]
  cases leading_number s with
  | none => simp
  | some v =>
    by_cases h : v < INT_MIN ∨ INT_MAX < v
    · simp [h]
    · simp [h]

/-- C19: `asInt` returns no value exactly when `from_chars` reports an error,
that is when the input does not begin with an optional `-` followed by at
least one decimal digit, or when the leading number does not fit in `int`;
otherwise it returns the leading number, whatever follows it.  On the inputs
of the demo: `42` gives 42, ` 077` and `hello` give no value, `0x33` gives 0. -/
theorem asInt_leading_number :
    (∀ s : Str, (asInt s = none ↔ (from_chars s).1.ec ≠ errc.ok) ∧
      asInt s = (match leading_number s with
        | none => none
        | some v => if INT_MIN ≤ v ∧ v ≤ INT_MAX then some v else none)) ∧
    asInt "42".toList = some 42 ∧ asInt " 077".toList = none ∧
    asInt "hello".toList = none ∧ asInt "0x33".toList = some 0 :=
  ⟨fun s => ⟨asInt_none_iff s, asInt_eq s⟩, by decide, by decide, by decide, by decide⟩

end StringViews

namespace OptionalDemo

/-- C20: streaming a `Name` appends the first name, a space, the middle name
and a space if there is a middle name, and the last name; `Name{"Jim",
nullopt, "Knopf"}` prints `Jim Knopf` and `Name{"Donald", "Ervin", "Knuth"}`
prints `Donald Ervin Knuth`. -/
theorem Name.operator_shl_output :
    (∀ strm f l : Str,
      Name.operator_shl strm ⟨f, none, l⟩ = strm ++ (f ++ " ".toList ++ l)) ∧
    (∀ strm f m l : Str,
      Name.operator_shl strm ⟨f, some m, l⟩
        = strm ++ (f ++ " ".toList ++ m ++ " ".toList ++ l)) ∧
    Name.operator_shl [] ⟨"Jim".toList, none, "Knopf".toList⟩ = "Jim Knopf".toList ∧
    Name.operator_shl [] ⟨"Donald".toList, some "Ervin".toList, "Knuth".toList⟩
      = "Donald Ervin Knuth".toList := by
  refine ⟨?_, ?_, by decide, by decide⟩
  · intro strm f l
    simp [Name.operator_shl]
  · intro strm f m l
    simp [Name.operator_shl]

end OptionalDemo

namespace OptionalDemo

theorem dropWhile_isspace_eq (s : Str)
    (hstart : ∀ c, s.head? = some c → isspace c = false ∧ c ≠ '+') :
    s.dropWhile isspace = s := by
  cases s with
  | nil => rfl
  | cons c cs =>
    have h := (hstart c rfl).1
    rw [List.dropWhile_cons, h]
    rfl

/-- C28: on every input that does not start with a white-space character or a
`+`, the `asInt` built on `std::stoi` and the `asInt` built on
`std::from_chars` return the same: both no value, or both the same `int`.
On ` 077` they differ: 77 against no value. -/
theorem asInt_agree (s : Str)
    (hstart : ∀ c, s.head? = some c → isspace c = false ∧ c ≠ '+') :
    asInt s = StringViews.asInt s ∧
    asInt " 077".toList = some 77 ∧ StringViews.asInt " 077".toList = none := by
  refine ⟨?_, by decide, by decide⟩
  have hplus : ¬ s.head? = some '+' := fun h => (hstart '+' h).2 rfl
  simp only [asInt, stoi, StringViews.asInt, StringViews.from_chars,
    dropWhile_isspace_eq s hstart, hplus, or_false, decide_eq_true_eq]
  by_cases h0 : (StringViews.scan_digits (if s.head? = some '-' then s.tail else s) 0 0).2 = 0
  · simp [h0]
  · by_cases hr : (if s.head? = some '-' then
        - ((StringViews.scan_digits (if s.head? = some '-' then s.tail else s) 0 0).1 : Int)
        else ((StringViews.scan_digits (if s.head? = some '-' then s.tail else s) 0 0).1 : Int))
        < StringViews.INT_MIN ∨ StringViews.INT_MAX <
        (if s.head? = some '-' then
        - ((StringViews.scan_digits (if s.head? = some '-' then s.tail else s) 0 0).1 : Int)
        else ((StringViews.scan_digits (if s.head? = some '-' then s.tail else s) 0 0).1 : Int))
    · simp [h0, hr]
    · simp [h0, hr]

/-- Witness of C28: the input `-12ab`. -/
theorem asInt_agree_witness :
    asInt "-12ab".toList = StringViews.asInt "-12ab".toList ∧
    asInt " 077".toList = some 77 ∧ StringViews.asInt " 077".toList = none :=
  asInt_agree "-12ab".toList (by
    intro c hc
    have e : c = '-' := by simpa using hc.symm
    subst e
    decide)

end OptionalDemo

namespace CTAD

theorem CountCalls.after_calls {Args R : Type} : ∀ (uses : List (Use Args))
    (self : CountCalls Args R),
    (self.after uses).calls = self.calls + invocations uses ∧
    (self.after uses).callback = self.callback
  | [], self => by simp [CountCalls.after, invocations]
  | Use.call args :: rest, self => by
    have ih := CountCalls.after_calls rest (self.operator_call args).2
    rw [CountCalls.after, invocations, ih.1, ih.2]
    simp only [CountCalls.operator_call, Nat.cast_add, Nat.cast_one]
    exact ⟨by omega, trivial⟩
  | Use.count :: rest, self => by
    have ih := CountCalls.after_calls rest self.count.2
    rw [CountCalls.after, invocations, ih.1, ih.2]
    simp [CountCalls.count]

theorem invocations_take_le {Args : Type} : ∀ (uses : List (Use Args)) (n : Nat),
    invocations (uses.take n) ≤ invocations uses
  | [], n => by simp [invocations]
  | u :: rest, 0 => by simp [invocations]
  | Use.call args :: rest, n + 1 => by
    rw [List.take_succ_cons, invocations, invocations]
    exact Nat.succ_le_succ (invocations_take_le rest n)
  | Use.count :: rest, n + 1 => by
    rw [List.take_succ_cons, invocations, invocations]
    exact invocations_take_le rest n

/-- C21: a `CountCalls` object counts the calls of its `operator()`.  After
construction `count()` is 0; a call of `operator()` returns what the callback
returns for the arguments and makes `count()` larger by one; `count()` leaves
the object as it is; so after any sequence of uses, `count()` is the number of
calls of `operator()` among them, and on the way the counter is never above
that number, so that it stays in the range of `long` when that number does.
For the lambda of the source: two calls, with a `count()` in between, give
2. -/
theorem CountCalls.counts_calls :
    (∀ (Args R : Type) (cb : Args → R),
      (CountCalls.construct cb).count.1 = 0 ∧
      (∀ (self : CountCalls Args R) (args : Args),
        (self.operator_call args).1 = self.callback args ∧
        (self.operator_call args).2.count.1 = self.count.1 + 1 ∧
        (self.operator_call args).2.callback = self.callback) ∧
      (∀ self : CountCalls Args R, self.count.2 = self) ∧
      (∀ uses : List (Use Args),
        ((CountCalls.construct cb).after uses).count.1 = invocations uses) ∧
      (∀ (uses : List (Use Args)) (n : Nat),
        0 ≤ ((CountCalls.construct cb).after (uses.take n)).count.1 ∧
        ((CountCalls.construct cb).after (uses.take n)).count.1 ≤ invocations uses)) ∧
    ((CountCalls.construct (fun p : Int × Int => decide (p.1 > p.2))).after
      [Use.call (3, 1), Use.count, Use.call (1, 2)]).count.1 = 2 ∧
    ((CountCalls.construct (fun p : Int × Int => decide (p.1 > p.2))).operator_call (3, 1)).1
      = true := by
  refine ⟨?_, by decide, by decide⟩
  intro Args R cb
  have hcount : ∀ uses : List (Use Args),
      ((CountCalls.construct cb).after uses).count.1 = invocations uses := by
    intro uses
    have h := (CountCalls.after_calls uses (CountCalls.construct cb)).1
    have h0 : (CountCalls.construct cb).calls = 0 := rfl
    rw [h0, zero_add] at h
    exact h
  refine ⟨rfl, fun self args => ⟨rfl, rfl, rfl⟩, fun self => rfl, hcount, ?_⟩
  intro uses n
  rw [hcount]
  exact ⟨Int.natCast_nonneg _, Int.ofNat_le.mpr (invocations_take_le uses n)⟩

end CTAD

namespace ParallelSTL

theorem fill_sum : ∀ (num : Nat) (coll : List Int),
    (fill num coll).sum = coll.sum + 10 * (num : Int)
  | 0, coll => by simp [fill]
  | num + 1, coll => by
    rw [fill, fill_sum num, List.sum_append]
    simp only [List.sum_cons, List.sum_nil, Nat.cast_add, Nat.cast_one]
    omega

theorem fill_nonneg : ∀ (num : Nat) (coll : List Int), (∀ x ∈ coll, 0 ≤ x) →
    ∀ x ∈ fill num coll, 0 ≤ x
  | 0, coll, h => by simpa [fill] using h
  | num + 1, coll, h => by
    rw [fill]
    apply fill_nonneg num
    intro x hx
    rw [List.mem_append] at hx
    rcases hx with hx | hx
    · exact h x hx
    · simp only [List.mem_cons, List.mem_singleton, List.not_mem_nil, or_false] at hx
      rcases hx with e | e | e | e <;> rw [e] <;> decide

theorem sum_nonneg_of_nonneg : ∀ l : List Int, (∀ x ∈ l, 0 ≤ x) → 0 ≤ l.sum
  | [], _ => by simp
  | a :: rest, h => by
    rw [List.sum_cons]
    have h1 := h a (List.mem_cons_self a rest)
    have h2 := sum_nonneg_of_nonneg rest (fun x hx => h x (List.mem_cons_of_mem a hx))
    omega

theorem long_add_eq (a b : Int) (ha : 0 ≤ a) (hb : 0 ≤ b) (hsum : a + b ≤ LONG_MAX) :
    long_add a b = some (a + b) := by
  have hmin : LONG_MIN ≤ a + b := by
    have : LONG_MIN ≤ 0 := by decide
    omega
  rw [long_add, if_pos ⟨hmin, hsum⟩]

theorem accumulate_eq : ∀ (l : List Int) (init : Int), (∀ x ∈ l, 0 ≤ x) → 0 ≤ init →
    init + l.sum ≤ LONG_MAX → accumulate l init = some (init + l.sum)
  | [], init, _, _, _ => by simp [accumulate]
  | a :: rest, init, h, hinit, hsum => by
    have ha := h a (List.mem_cons_self a rest)
    have hrest := sum_nonneg_of_nonneg rest (fun x hx => h x (List.mem_cons_of_mem a hx))
    rw [List.sum_cons] at hsum
    rw [accumulate, long_add_eq init a hinit ha (by omega)]
    simp only
    rw [accumulate_eq rest (init + a) (fun x hx => h x (List.mem_cons_of_mem a hx))
      (by omega) (by omega), List.sum_cons]
    congr 1
    omega

theorem generalized_noncommutative_sum_eq {l : List Int} {o : Option Int}
    (h : generalized_noncommutative_sum l o) :
    (∀ x ∈ l, 0 ≤ x) → l.sum ≤ LONG_MAX → o = some l.sum := by
  induction h with
  | single a => intro _ _; simp
  | split l1 l2 x y _ _ ih1 ih2 =>
    intro hnn hsum
    have hnn1 : ∀ x ∈ l1, 0 ≤ x := fun x hx => hnn x (List.mem_append_left _ hx)
    have hnn2 : ∀ x ∈ l2, 0 ≤ x := fun x hx => hnn x (List.mem_append_right _ hx)
    have h1 := sum_nonneg_of_nonneg l1 hnn1
    have h2 := sum_nonneg_of_nonneg l2 hnn2
    rw [List.sum_append] at hsum
    have e1 := Option.some.inj (ih1 hnn1 (by omega))
    have e2 := Option.some.inj (ih2 hnn2 (by omega))
    rw [e1, e2, long_add_eq _ _ h1 h2 hsum, List.sum_append]
  | left l1 l2 _ _ ih =>
    intro hnn hsum
    have hnn1 : ∀ x ∈ l1, 0 ≤ x := fun x hx => hnn x (List.mem_append_left _ hx)
    have hnn2 : ∀ x ∈ l2, 0 ≤ x := fun x hx => hnn x (List.mem_append_right _ hx)
    have h2 := sum_nonneg_of_nonneg l2 hnn2
    rw [List.sum_append] at hsum
    exact absurd (ih hnn1 (by omega)) (by simp)
  | right l1 l2 _ _ ih =>
    intro hnn hsum
    have hnn1 : ∀ x ∈ l1, 0 ≤ x := fun x hx => hnn x (List.mem_append_left _ hx)
    have hnn2 : ∀ x ∈ l2, 0 ≤ x := fun x hx => hnn x (List.mem_append_right _ hx)
    have h1 := sum_nonneg_of_nonneg l1 hnn1
    rw [List.sum_append] at hsum
    exact absurd (ih hnn2 (by omega)) (by simp)

theorem generalized_noncommutative_sum_sum : ∀ l : List Int, l ≠ [] →
    (∀ x ∈ l, 0 ≤ x) → l.sum ≤ LONG_MAX → generalized_noncommutative_sum l (some l.sum)
  | [], h, _, _ => absurd rfl h
  | [a], _, _, _ => by simpa using generalized_noncommutative_sum.single a
  | a :: b :: rest, _, hnn, hsum => by
    have ha := hnn a (List.mem_cons_self a _)
    have hnn2 : ∀ x ∈ b :: rest, 0 ≤ x := fun x hx => hnn x (List.mem_cons_of_mem a hx)
    have h2 := sum_nonneg_of_nonneg (b :: rest) hnn2
    rw [List.sum_cons] at hsum
    have ih := generalized_noncommutative_sum_sum (b :: rest) (by simp) hnn2 (by omega)
    have hs := generalized_noncommutative_sum.split [a] (b :: rest) a _
      (generalized_noncommutative_sum.single a) ih
    rw [long_add_eq a _ ha h2 hsum] at hs
    simpa using hs

theorem reduce_eq {coll : List Int} {init : Int} {result : Option Int}
    (hcoll : ∀ x ∈ coll, 0 ≤ x) (hinit : 0 ≤ init) (hsum : init + coll.sum ≤ LONG_MAX)
    (h : reduce coll init result) : result = some (init + coll.sum) := by
  obtain ⟨operands, hperm, hgns⟩ := h
  have hnn : ∀ x ∈ operands, 0 ≤ x := by
    intro x hx
    have hx1 := hperm.mem_iff.mp hx
    rcases List.mem_cons.mp hx1 with e | hx2
    · rw [e]; exact hinit
    · exact hcoll x hx2
  have hs : operands.sum = init + coll.sum := by rw [hperm.sum_eq, List.sum_cons]
  rw [generalized_noncommutative_sum_eq hgns hnn (by rw [hs]; exact hsum), hs]

theorem reduce_exists {coll : List Int} {init : Int}
    (hcoll : ∀ x ∈ coll, 0 ≤ x) (hinit : 0 ≤ init) (hsum : init + coll.sum ≤ LONG_MAX) :
    reduce coll init (some (init + coll.sum)) := by
  refine ⟨init :: coll, List.Perm.refl _, ?_⟩
  have h := generalized_noncommutative_sum_sum (init :: coll) (by simp)
    (by
      intro x hx
      rcases List.mem_cons.mp hx with e | hx2
      · rw [e]; exact hinit
      · exact hcoll x hx2)
    (by rw [List.sum_cons]; exact hsum)
  rwa [List.sum_cons] at h

theorem reserve_bounds {capacity num : Nat} (h : reserve capacity (num * 4) = true) :
    ¬ LONG_MAX < ((num * 4 : Nat) : Int) ∧ 10 * (num : Int) ≤ LONG_MAX ∧
    num * 4 ≤ capacity := by
  simp only [reserve, decide_eq_true_eq, max_size] at h
  simp only [LONG_MAX]
  omega

theorem fill_facts (num : Nat) :
    (∀ x ∈ fill num [], (0 : Int) ≤ x) ∧ (fill num []).sum = 10 * (num : Int) := by
  refine ⟨fill_nonneg num [] (by simp), ?_⟩
  rw [fill_sum]
  simp

theorem seq_accumulate_printed (capacity num : Nat)
    (hreserve : reserve capacity (num * 4) = true) :
    seq_accumulate capacity num = Outcome.printed (10 * (num : Int)) := by
  obtain ⟨h1, h2, _⟩ := reserve_bounds hreserve
  obtain ⟨hnn, hsum⟩ := fill_facts num
  rw [seq_accumulate, if_neg h1, hreserve]
  simp only [Bool.true_eq_false, if_false]
  rw [accumulate_eq _ 0 hnn (le_refl 0) (by rw [hsum]; omega), hsum]
  simp

theorem par_reduce_printed (capacity num : Nat)
    (hreserve : reserve capacity (num * 4) = true) :
    par_reduce capacity num (Outcome.printed (10 * (num : Int))) ∧
    ∀ outcome, par_reduce capacity num outcome →
      outcome = Outcome.printed (10 * (num : Int)) := by
  obtain ⟨h1, h2, _⟩ := reserve_bounds hreserve
  obtain ⟨hnn, hsum⟩ := fill_facts num
  constructor
  · rw [par_reduce, if_neg h1, hreserve]
    simp only [Bool.true_eq_false, if_false]
    refine ⟨some (0 + (fill num []).sum),
      reduce_exists hnn (le_refl 0) (by rw [hsum]; omega), ?_⟩
    simp [hsum]
  · intro outcome h
    rw [par_reduce, if_neg h1, hreserve] at h
    simp only [Bool.true_eq_false, if_false] at h
    obtain ⟨result, hred, hout⟩ := h
    rw [reduce_eq hnn (le_refl 0) (by rw [hsum]; omega) hred, hsum] at hout
    rw [hout]
    simp

/-- C22, as amended: `reduce()` is a parallel form of `accumulate()` wherever a
sum is computed.  For every `num` for which `coll.reserve( num * 4 )`
succeeds, `seq_accumulate( num )` prints `10 * num`, which is within the range
of `long`, and `par_reduce( num )` prints the same, in whatever order and
grouping `std::reduce` adds; this gives 10, 1000 and 10000000 for the three
inputs of `main`.  When `reserve` does not succeed, neither function prints a
sum. -/
theorem par_reduce_eq_seq_accumulate (capacity num : Nat)
    (hreserve : reserve capacity (num * 4) = true) :
    seq_accumulate capacity num = Outcome.printed (10 * (num : Int)) ∧
    10 * (num : Int) ≤ LONG_MAX ∧
    par_reduce capacity num (Outcome.printed (10 * (num : Int))) ∧
    (∀ outcome, par_reduce capacity num outcome → outcome = seq_accumulate capacity num) ∧
    (∀ capacity1 : Nat, 4000000 ≤ capacity1 →
      seq_accumulate capacity1 1 = Outcome.printed 10 ∧
      seq_accumulate capacity1 100 = Outcome.printed 1000 ∧
      seq_accumulate capacity1 1000000 = Outcome.printed 10000000) ∧
    (∀ capacity1 num1 : Nat, reserve capacity1 (num1 * 4) = false →
      (∀ sum, seq_accumulate capacity1 num1 ≠ Outcome.printed sum) ∧
      (∀ sum, ¬ par_reduce capacity1 num1 (Outcome.printed sum))) := by
  obtain ⟨hp1, hp2⟩ := par_reduce_printed capacity num hreserve
  refine ⟨seq_accumulate_printed capacity num hreserve, (reserve_bounds hreserve).2.1, hp1,
    ?_, ?_, ?_⟩
  · intro outcome h
    rw [hp2 outcome h, seq_accumulate_printed capacity num hreserve]
  · intro capacity1 hc
    have hr : ∀ n : Nat, n ≤ 1000000 → reserve capacity1 (n * 4) = true := by
      intro n hn
      simp only [reserve, decide_eq_true_eq, max_size]
      omega
    refine ⟨?_, ?_, ?_⟩
    · rw [seq_accumulate_printed capacity1 1 (hr 1 (by omega))]; norm_num
    · rw [seq_accumulate_printed capacity1 100 (hr 100 (by omega))]; norm_num
    · rw [seq_accumulate_printed capacity1 1000000 (hr 1000000 (by omega))]; norm_num
  · intro capacity1 num1 hfail
    constructor
    · intro sum
      rw [seq_accumulate]
      by_cases h : LONG_MAX < ((num1 * 4 : Nat) : Int)
      · rw [if_pos h]
        exact fun e => Outcome.noConfusion e
      · rw [if_neg h, if_pos hfail]
        exact fun e => Outcome.noConfusion e
    · intro sum
      rw [par_reduce]
      by_cases h : LONG_MAX < ((num1 * 4 : Nat) : Int)
      · rw [if_pos h]
        exact fun e => Outcome.noConfusion e
      · rw [if_neg h, if_pos hfail]
        exact fun e => Outcome.noConfusion e

/-- Witness of C22 as amended: `num = 100` in a run in which a million elements
can be allocated. -/
theorem par_reduce_eq_seq_accumulate_witness :
    seq_accumulate 1000000 100 = Outcome.printed 1000 ∧
    par_reduce 1000000 100 (Outcome.printed 1000) :=
  have h := par_reduce_eq_seq_accumulate 1000000 100 (by decide)
  ⟨h.1.trans (by norm_num), by simpa using h.2.2.1⟩

/-- Counterexample to C22 as stated: for `num = 10^18` the number `10 * num` is
not a `long`, and `coll.reserve( num * 4 )` is asked for more than
`max_size()` elements and throws, whatever the allocator can provide: neither
function computes a sum. -/
theorem par_reduce_eq_seq_accumulate_counterexample :
    LONG_MAX < 10 * (1000000000000000000 : Int) ∧
    seq_accumulate (2 ^ 64) 1000000000000000000 = Outcome.thrown ∧
    seq_accumulate (2 ^ 64) 1000000000000000000
      ≠ Outcome.printed (10 * (1000000000000000000 : Int)) ∧
    ¬ par_reduce (2 ^ 64) 1000000000000000000
      (Outcome.printed (10 * (1000000000000000000 : Int))) := by
  have hres : reserve (2 ^ 64) (1000000000000000000 * 4) = false := by
    simp [reserve, max_size]
  have hlong : ¬ LONG_MAX < ((1000000000000000000 * 4 : Nat) : Int) := by
    simp [LONG_MAX]
  refine ⟨by simp [LONG_MAX], ?_, ?_, ?_⟩
  · rw [seq_accumulate, if_neg hlong, hres]
    simp
  · rw [seq_accumulate, if_neg hlong, hres]
    simp
  · rw [par_reduce, if_neg hlong, hres]
    simp

end ParallelSTL
